import Mathlib

/-!
Shallow embedding of the trusted-proxy-aware client IP resolver
(package `common`, file with `RealClientIP` / `TrustedProxies` et al.),
together with the parts of Go's `net` and `net/netip` standard library
that the resolver calls (`net.ParseIP`, `net.ParseCIDR`, `net.CIDRMask`,
`net.SplitHostPort`, `(*net.IPNet).Contains`, `net.IP.To4`,
`net.IP.String`, `strings.TrimSpace`, `strings.Split`,
`strings.FieldsFunc`).

Go strings are modelled as Lean strings processed as rune (=Char) lists;
all the byte-level operations the resolver performs are on ASCII
characters, for which the two views agree.  Machine bytes are `Nat`
values below 256; IP addresses are byte lists (length 4 or 16), exactly
the `net.IP` slice representation.
-/

namespace NewApi

/-! ## Go `unicode` / `strings` helpers -/

/-- Character set of Go's `unicode.IsSpace` (White_Space property). -/
def goIsSpace (c : Char) : Bool :=
  c = ' ' ∨ c = '\t' ∨ c = '\n' ∨ c.toNat = 11 ∨ c.toNat = 12 ∨ c = '\r' ∨
  c.toNat = 0x85 ∨ c.toNat = 0xA0 ∨ c.toNat = 0x1680 ∨
  (0x2000 ≤ c.toNat ∧ c.toNat ≤ 0x200A) ∨ c.toNat = 0x2028 ∨
  c.toNat = 0x2029 ∨ c.toNat = 0x202F ∨ c.toNat = 0x205F ∨ c.toNat = 0x3000

/-- Go `strings.TrimSpace`, on rune lists. -/
def trimSpaceL (s : List Char) : List Char :=
  ((s.dropWhile goIsSpace).reverse.dropWhile goIsSpace).reverse

/-- Go `strings.TrimSpace`. -/
def trimSpace (s : String) : String := ⟨trimSpaceL s.data⟩

/-- Split a rune list at every occurrence of `sep` (Go `strings.Split`
with a one-rune separator); the result always has one more element than
the number of separators, so the empty string yields `[[]]`. -/
def splitChar (sep : Char) : List Char → List (List Char)
  | [] => [[]]
  | c :: rest =>
    if c = sep then
      [] :: splitChar sep rest
    else
      match splitChar sep rest with
      | [] => [[c]]
      | f :: r => (c :: f) :: r

/-- Split a rune list at every rune satisfying `p` (separators are
dropped; like `splitChar` but with a predicate). -/
def splitPred (p : Char → Bool) : List Char → List (List Char)
  | [] => [[]]
  | c :: rest =>
    if p c then
      [] :: splitPred p rest
    else
      match splitPred p rest with
      | [] => [[c]]
      | f :: r => (c :: f) :: r

/-- Go `strings.FieldsFunc` with the given separator predicate:
maximal runs of non-separator runes, empty fields discarded. -/
def fieldsFunc (p : Char → Bool) (s : List Char) : List (List Char) :=
  (splitPred p s).filter (fun f => f ≠ [])

/-- Index of the last occurrence of `c` (Go's `last(s, c)` helper),
or `none`. -/
def lastIdxOf (c : Char) (s : List Char) : Option Nat :=
  match s with
  | [] => none
  | d :: rest =>
    match lastIdxOf c rest with
    | some i => some (i + 1)
    | none => if d = c then some 0 else none

/-! ## Go `net/netip` IPv4 parsing

`parseIPv4Fields` from `net/netip`: exactly four decimal octets
separated by dots, each 0..255, no leading zeros, no empty fields. -/

/-- Loop body of netip's `parseIPv4Fields`; `val` is the current octet
accumulator, `digLen` the number of digits seen in the current octet,
`fields` the completed octets. -/
def parseV4Fields : List Char → Nat → Nat → List Nat → Option (List Nat)
  | [], val, digLen, fields =>
    if digLen = 0 then none
    else if fields.length = 3 then some (fields ++ [val]) else none
  | c :: rest, val, digLen, fields =>
    if c.isDigit then
      if digLen = 1 ∧ val = 0 then none
      else if val * 10 + (c.toNat - 48) > 255 then none
      else parseV4Fields rest (val * 10 + (c.toNat - 48)) (digLen + 1) fields
    else if c = '.' then
      if digLen = 0 then none
      else if fields.length = 3 then none
      else parseV4Fields rest 0 0 (fields ++ [val])
    else none

/-- netip's `parseIPv4`: the four octets of a dotted-quad literal. -/
def parseIPv4Go (s : List Char) : Option (List Nat) :=
  parseV4Fields s 0 0 []

/-! ## Go `net/netip` IPv6 parsing -/

/-- Hexadecimal digit value, if any. -/
def hexVal (c : Char) : Option Nat :=
  if '0' ≤ c ∧ c ≤ '9' then some (c.toNat - 48)
  else if 'a' ≤ c ∧ c ≤ 'f' then some (c.toNat - 87)
  else if 'A' ≤ c ∧ c ≤ 'F' then some (c.toNat - 55)
  else none

/-- Value of a hex-digit run (the accumulator loop of netip's
`parseIPv6`); overflow past 0xFFFF is detected on the final value,
which is equivalent because the accumulator is monotone. -/
def hexAcc (ds : List Char) : Nat :=
  ds.foldl (fun acc c => acc * 16 + (hexVal c).getD 0) 0

/-- One state of netip's `parseIPv6` main loop: remaining input,
position of the `::` ellipsis in the byte array (if seen), bytes
emitted so far.  The loop runs while fewer than 16 bytes are emitted;
`fuel` bounds the iteration count exactly as the loop condition does
(each iteration emits at least two bytes, so fuel 9 is never
exhausted). -/
def v6Iter : Nat → List Char → Option Nat → List Nat →
    Option (List Char × Option Nat × List Nat)
  | 0, s, ell, bytes => some (s, ell, bytes)
  | fuel + 1, s, ell, bytes =>
    if 16 ≤ bytes.length then some (s, ell, bytes)
    else
      let ds := s.takeWhile (fun c => (hexVal c).isSome)
      if ds.length = 0 then none
      else
        let acc := hexAcc ds
        if 0xFFFF < acc then none
        else
          match s.drop ds.length with
          | [] => some ([], ell, bytes ++ [acc / 256, acc % 256])
          | c :: rest2 =>
            if c = '.' then
              if ell.isNone ∧ bytes.length ≠ 12 then none
              else if 16 < bytes.length + 4 then none
              else
                match parseV4Fields s 0 0 [] with
                | none => none
                | some ip4 => some ([], ell, bytes ++ ip4)
            else if c = ':' then
              match rest2 with
              | [] => none
              | c2 :: rest3 =>
                if c2 = ':' then
                  if ell.isSome then none
                  else if rest3 = [] then
                    some ([], some (bytes ++ [acc / 256, acc % 256]).length,
                      bytes ++ [acc / 256, acc % 256])
                  else v6Iter fuel rest3
                    (some (bytes ++ [acc / 256, acc % 256]).length)
                    (bytes ++ [acc / 256, acc % 256])
                else v6Iter fuel rest2 ell (bytes ++ [acc / 256, acc % 256])
            else none

/-- netip's `parseIPv6` (with the zone handling collapsed: `net.ParseIP`
and `net.ParseCIDR` reject every address carrying a zone, so a `%` is an
immediate failure).  Returns the 16 address bytes. -/
def parseIPv6Go (s : List Char) : Option (List Nat) :=
  if s.contains '%' then none
  else
    match s with
    | c1 :: c2 :: rest =>
      if c1 = ':' ∧ c2 = ':' then
        if rest.isEmpty then some (List.replicate 16 0)
        else v6Finish (v6Iter 9 rest (some 0) [])
      else v6Finish (v6Iter 9 (c1 :: c2 :: rest) none [])
    | _ => v6Finish (v6Iter 9 s none [])
where
  /-- Post-loop processing: the input must be exhausted; a short byte
  array is expanded at the ellipsis with zeros; a full array must not
  carry an ellipsis. -/
  v6Finish : Option (List Char × Option Nat × List Nat) → Option (List Nat)
  | none => none
  | some (s, ell, bytes) =>
    if s ≠ [] then none
    else if bytes.length < 16 then
      match ell with
      | none => none
      | some e =>
        some (bytes.take e ++ List.replicate (16 - bytes.length) 0 ++ bytes.drop e)
    else if ell.isSome then none
    else some bytes

/-! ## Go `net/netip.ParseAddr` dispatch and `net.ParseIP` -/

/-- A parsed address together with its family, as `netip.Addr` keeps it:
the family is decided by the first of `.`, `:`, `%` in the input. -/
inductive GoAddr where
  | v4 (bytes : List Nat)
  | v6 (bytes : List Nat)
deriving DecidableEq, Repr

/-- Address bytes of a `GoAddr` (`netip.Addr.AsSlice`): 4 bytes for the
IPv4 family, 16 for IPv6. -/
def GoAddr.bytes : GoAddr → List Nat
  | .v4 b => b
  | .v6 b => b

/-- Bit length of a `GoAddr` (`netip.Addr.BitLen`). -/
def GoAddr.bits : GoAddr → Nat
  | .v4 _ => 32
  | .v6 _ => 128

/-- netip's `ParseAddr` (restricted to zone-free results, which is what
both `net.ParseIP` and `net.ParseCIDR` accept): dispatch on the first
special rune. -/
def parseAddrGo (s : List Char) : Option GoAddr :=
  match s.find? (fun c => c = '.' ∨ c = ':' ∨ c = '%') with
  | some c =>
    if c = '.' then (parseIPv4Go s).map .v4
    else if c = ':' then (parseIPv6Go s).map .v6
    else none
  | none => none

/-- The 12-byte front of an IPv4-mapped IPv6 address. -/
def v4MappedFront : List Nat := [0, 0, 0, 0, 0, 0, 0, 0, 0, 0, 255, 255]

/-- Go `net.ParseIP`: always a 16-byte slice (`As16`), IPv4 results
mapped into the `::ffff:0:0/96` block; `none` models the `nil` return. -/
def ParseIPGo (s : String) : Option (List Nat) :=
  match parseAddrGo s.data with
  | some (.v4 b) => some (v4MappedFront ++ b)
  | some (.v6 b) => some b
  | none => none

/-- Go `net.IP.To4`: the 4-byte form of an IPv4 or IPv4-mapped address,
else `none` (= `nil`). -/
def to4 (ip : List Nat) : Option (List Nat) :=
  if ip.length = 4 then some ip
  else if ip.length = 16 ∧ ip.take 10 = List.replicate 10 0 ∧
      ip.getD 10 0 = 255 ∧ ip.getD 11 0 = 255 then
    some (ip.drop 12)
  else none

/-! ## Rendering (`net.IP.String`) -/

/-- Digit rune for a value below 16 (lowercase hex). -/
def digitChar (n : Nat) : Char :=
  if n < 10 then Char.ofNat (48 + n) else Char.ofNat (87 + n)

/-- Decimal digit runes of `n` (no leading zeros; `fuel` bounds the
recursion and is always given ≥ the digit count). -/
def decDigits : Nat → Nat → List Char
  | 0, _ => []
  | fuel + 1, n =>
    if n < 10 then [digitChar n] else decDigits fuel (n / 10) ++ [digitChar (n % 10)]

/-- Lowercase hexadecimal digit runes of `n` (no leading zeros). -/
def hexDigits : Nat → Nat → List Char
  | 0, _ => []
  | fuel + 1, n =>
    if n < 16 then [digitChar n] else hexDigits fuel (n / 16) ++ [digitChar (n % 16)]

/-- Go's `hexString` helper: two lowercase hex runes per byte. -/
def hexStringGo (bs : List Nat) : List Char :=
  bs.flatMap (fun b => [digitChar (b / 16 % 16), digitChar (b % 16)])

/-- The eight 16-bit groups of a 16-byte IPv6 address. -/
def v6Groups : List Nat → List Nat
  | b0 :: b1 :: rest => (b0 * 256 + b1) :: v6Groups rest
  | _ => []

/-- Length of the zero run at the head of a group list. -/
def zeroRunLen (gs : List Nat) : Nat := (gs.takeWhile (fun g => g = 0)).length

/-- Longest run of at least two zero groups, leftmost on ties, as
netip's `Addr.String` locates it: `some (start, length)` or `none`. -/
def bestZeroRun : List Nat → Nat → Option (Nat × Nat) → Option (Nat × Nat)
  | [], _, best => best
  | g :: t, i, best =>
    if g = 0 then
      let l := 1 + zeroRunLen t
      let best2 :=
        if 2 ≤ l ∧ (match best with | none => 0 | some b => b.2) < l then some (i, l)
        else best
      bestZeroRun (t.drop (l - 1)) (i + l) best2
    else bestZeroRun t (i + 1) best
termination_by gs _ _ => gs.length
decreasing_by
  · have h := List.length_drop (1 + zeroRunLen t - 1) t
    simp only [List.length_cons]
    omega
  · simp

/-- Join group renderings with `:` separators. -/
def joinColon (parts : List (List Char)) : List Char :=
  match parts with
  | [] => []
  | p :: rest => p ++ (rest.flatMap (fun q => ':' :: q))

/-- netip's RFC 5952 rendering of eight 16-bit groups. -/
def renderV6Groups (gs : List Nat) : List Char :=
  let hexOf := fun g => hexDigits 5 g
  match bestZeroRun gs 0 none with
  | none => joinColon (gs.map hexOf)
  | some (s, l) =>
    joinColon ((gs.take s).map hexOf) ++ [':', ':'] ++
      joinColon ((gs.drop (s + l)).map hexOf)

/-- Go `net.IP.String`: dotted quad for 4-byte and IPv4-mapped
addresses, RFC 5952 text for other 16-byte addresses, the `?`-prefixed
hex dump for any other length, `<nil>` for the empty slice. -/
def ipStringGo (ip : List Nat) : String :=
  if ip.length = 0 then "<nil>"
  else
    match to4 ip with
    | some q =>
      ⟨decDigits 4 (q.getD 0 0) ++ '.' :: decDigits 4 (q.getD 1 0) ++
        '.' :: decDigits 4 (q.getD 2 0) ++ '.' :: decDigits 4 (q.getD 3 0)⟩
    | none =>
      if ip.length = 16 then ⟨renderV6Groups (v6Groups ip)⟩
      else ⟨'?' :: hexStringGo ip⟩

/-! ## Go `net.CIDRMask`, `net.ParseCIDR`, `net.IPNet.Contains` -/

/-- Byte list of a CIDR mask: `count` bytes with `ones` leading one
bits (the loop body of `net.CIDRMask`). -/
def cidrMaskBytes : Nat → Nat → List Nat
  | 0, _ => []
  | count + 1, ones =>
    (if 8 ≤ ones then 255 else 256 - 2 ^ (8 - ones)) :: cidrMaskBytes count (ones - 8)

/-- Go `net.CIDRMask ones bits`; the empty list models the `nil` mask
returned for invalid arguments. -/
def cidrMask (ones bits : Nat) : List Nat :=
  if bits ≠ 32 ∧ bits ≠ 128 then []
  else if bits < ones then []
  else cidrMaskBytes (bits / 8) ones

/-- Go's `dtoi`: the decimal value of a rune list, failing on an empty
list, a non-digit, or a value reaching the 0xFFFFFF cutoff. -/
def dtoiAll (s : List Char) : Option Nat :=
  match s with
  | [] => none
  | _ =>
    if s.all Char.isDigit then
      let n := s.foldl (fun acc c => acc * 10 + (c.toNat - 48)) 0
      if n < 0xFFFFFF then some n else none
    else none

/-- Go `net.IPNet`: network number and mask, both raw byte lists. -/
structure IPNet where
  ip : List Nat
  mask : List Nat
deriving DecidableEq, Repr

/-- Pointwise byte AND of two equal-length byte lists (`IP.Mask` and
the comparisons inside `Contains`). -/
def landBytes (a b : List Nat) : List Nat := List.zipWith Nat.land a b

/-- Split a rune list at the first occurrence of `c`, if any. -/
def splitFirst (c : Char) (s : List Char) : Option (List Char × List Char) :=
  match s with
  | [] => none
  | d :: rest =>
    if d = c then some ([], rest)
    else
      match splitFirst c rest with
      | none => none
      | some (l, r) => some (d :: l, r)

/-- Go `net.ParseCIDR` (the `*IPNet` result): address part parsed by
`netip.ParseAddr` (zones rejected), prefix length by `dtoi` over the
whole mask text, bounded by the address bit length; the network number
is the address masked to the prefix. -/
def parseCIDRGo (s : List Char) : Option IPNet :=
  match splitFirst '/' s with
  | none => none
  | some (addr, maskTxt) =>
    match parseAddrGo addr with
    | none => none
    | some a =>
      match dtoiAll maskTxt with
      | none => none
      | some n =>
        if a.bits < n then none
        else
          let m := cidrMask n a.bits
          some ⟨landBytes a.bytes m, m⟩

/-- Go's `networkNumberAndMask`: the network number in 4-byte form when
possible, with a 16-byte mask shortened to its last 4 bytes to match;
`none` models the `nil, nil` return. -/
def networkNumberAndMask (n : IPNet) : Option (List Nat × List Nat) :=
  match to4 n.ip with
  | some ip4 =>
    if n.mask.length = 4 then some (ip4, n.mask)
    else if n.mask.length = 16 then some (ip4, n.mask.drop 12)
    else none
  | none =>
    if n.ip.length ≠ 16 then none
    else if n.mask.length = 4 then none
    else if n.mask.length = 16 then some (n.ip, n.mask)
    else none

/-- Go `(*net.IPNet).Contains`: normalize the argument through `To4`,
require equal lengths, compare the masked bytes. -/
def containsGo (n : IPNet) (ip : List Nat) : Bool :=
  let ip2 := match to4 ip with | some x => x | none => ip
  match networkNumberAndMask n with
  | none => decide (ip2.length = 0)
  | some (nn, m) =>
    decide (ip2.length = nn.length) && decide (landBytes nn m = landBytes ip2 m)

/-! ## Go `net.SplitHostPort` -/

/-- Go `net.SplitHostPort`, reduced to the host result (`none` models
the error return, in which case the caller falls back to the whole
string). -/
def splitHostPortGo (s : List Char) : Option (List Char) :=
  match lastIdxOf ':' s with
  | none => none
  | some i =>
    match s with
    | [] => none
    | c0 :: _ =>
      if c0 = '[' then
        match s.findIdx? (fun c => c = ']') with
        | none => none
        | some e =>
          if e + 1 = s.length then none
          else if e + 1 = i then
            let host := (s.drop 1).take (e - 1)
            if (s.drop 1).contains '[' then none
            else if (s.drop (e + 1)).contains ']' then none
            else some host
          else none
      else
        let host := s.take i
        if host.contains ':' then none
        else if s.contains '[' then none
        else if s.contains ']' then none
        else some host

/-! ## The resolver itself (package `common`) -/

/-- Modelled from the spec: the repository's `common.IsPrivateIP` is
called by `pickForwardedIP` but its definition is not among the
supplied files.  The spec pins it down as membership in "a standard
non-routable block (e.g., RFC1918 ranges, loopback, link-local)", so
this models exactly those blocks: 10.0.0.0/8, 172.16.0.0/12,
192.168.0.0/16, 127.0.0.0/8 and 169.254.0.0/16 on the IPv4 side, `::1`
and `fe80::/10` on the IPv6 side. -/
def IsPrivateIP (ip : List Nat) : Bool :=
  match to4 ip with
  | some q =>
    let a := q.getD 0 0
    let b := q.getD 1 0
    a = 10 ∨ (a = 172 ∧ 16 ≤ b ∧ b ≤ 31) ∨ (a = 192 ∧ b = 168) ∨
      a = 127 ∨ (a = 169 ∧ b = 254)
  | none =>
    ip = List.replicate 15 0 ++ [1] ∨
      (ip.getD 0 0 = 0xFE ∧ 0x80 ≤ ip.getD 1 0 ∧ ip.getD 1 0 ≤ 0xBF)

/-- Source: `pickForwardedIP` — scan a comma-separated header value
left to right; return the first entry whose trimmed text parses as a
public IP, else the first entry that parses at all, else the empty
string. -/
def pickForwardedIP (headerVal : String) : String :=
  if headerVal = "" then ""
  else pickLoop (splitChar ',' headerVal.data) ""
where
  /-- The loop of `pickForwardedIP` with its `firstValid` accumulator. -/
  pickLoop : List (List Char) → String → String
  | [], firstValid => firstValid
  | part :: rest, firstValid =>
    let ipStr : String := ⟨trimSpaceL part⟩
    if ipStr = "" then pickLoop rest firstValid
    else
      match ParseIPGo ipStr with
      | none => pickLoop rest firstValid
      | some ip =>
        let fv := if firstValid = "" then ipStr else firstValid
        if ¬ IsPrivateIP ip then ipStr else pickLoop rest fv

/-- The host string `parseRemoteIP` derives from a transport address:
`net.SplitHostPort` on the trimmed address, falling back to the whole
trimmed string on error. -/
def remoteHost (remoteAddr : String) : String :=
  let t := trimSpaceL remoteAddr.data
  ⟨(splitHostPortGo t).getD t⟩

/-- Source: `parseRemoteIP` — the derived host, fed to `net.ParseIP`
unless empty; `none` models the `nil` return. -/
def parseRemoteIP (remoteAddr : String) : Option (List Nat) :=
  let host := remoteHost remoteAddr
  if host = "" then none else ParseIPGo host

/-- Source: `splitProxyList` — split the environment string on commas
and semicolons, trim every field, drop the empty ones. -/
def splitProxyList (raw : String) : List String :=
  ((fieldsFunc (fun r => r = ',' ∨ r = ';') raw.data).map
    (fun part => trimSpaceL part)).filterMap
    (fun v => if v ≠ [] then some (⟨v⟩ : String) else none)

/-- One iteration of the `parseProxyCIDRs` loop: a token carrying a
`/` goes straight to `net.ParseCIDR`; otherwise it must parse as a
single IP and is widened with `/32` (when `To4` succeeds) or `/128`
before `net.ParseCIDR`. -/
def parseCIDRTok (proxy : String) : Option IPNet :=
  if proxy.data.contains '/' then parseCIDRGo proxy.data
  else
    match ParseIPGo proxy with
    | none => none
    | some ip =>
      if (to4 ip).isSome then parseCIDRGo (proxy.data ++ ['/', '3', '2'])
      else parseCIDRGo (proxy.data ++ ['/', '1', '2', '8'])

/-- Source: `parseProxyCIDRs` — the accumulation loop over the raw
list (invalid entries are logged and skipped). -/
def parseProxyCIDRs (list : List String) : List IPNet :=
  list.foldl
    (fun cidrs proxy =>
      match parseCIDRTok proxy with
      | none => cidrs
      | some cidr => cidrs ++ [cidr]) []

/-- The permissive default trust list. -/
def defaultProxyList : List String := ["0.0.0.0/0", "::/0"]

/-- Source: `loadTrustedProxies` — the once-per-process initialization
as a pure function of the `TRUSTED_PROXIES` environment value: the
resulting `(trustedProxyList, trustedProxyCIDRs)` pair. -/
def loadTrustedProxies (env : String) : List String × List IPNet :=
  let list0 := splitProxyList env
  let list1 := if list0.length = 0 then defaultProxyList else list0
  let cidrs := parseProxyCIDRs list1
  if cidrs.length = 0 then (defaultProxyList, parseProxyCIDRs defaultProxyList)
  else (list1, cidrs)

/-- Source: `TrustedProxies` — the raw specification list (the Go
function returns a fresh copy; the copied contents are this list, and
the aliasing claim is modelled separately with an explicit heap). -/
def TrustedProxies (env : String) : List String :=
  (loadTrustedProxies env).1

/-- The loop body of `isTrustedProxyIP` over an explicit range list. -/
def isTrustedIPIn (cidrs : List IPNet) (ip : List Nat) : Bool :=
  cidrs.any (fun cidr => containsGo cidr ip)

/-- Source: `isTrustedProxyIP` — membership of the remote IP in any
configured range. -/
def isTrustedProxyIP (env : String) (ip : List Nat) : Bool :=
  isTrustedIPIn (loadTrustedProxies env).2 ip

/-- Big-endian value of a byte list. -/
def bytesToNat : List Nat → Nat
  | [] => 0
  | b :: t => b * 256 ^ t.length + bytesToNat t

/-- Big-endian byte list of length `L` holding `n % 256 ^ L`. -/
def natToBytes : Nat → Nat → List Nat
  | 0, _ => []
  | L + 1, n => (n / 256 ^ L) % 256 :: natToBytes L n

/-- An inbound request as the resolver sees it: transport remote
address and header lookup (`req.Header.Get`). -/
structure Request where
  remoteAddr : String
  header : String → String

/-- The header-priority loop of `RealClientIPFromRequest`. -/
def headerLoop (r : Request) : Option String :=
  ["X-Forwarded-For", "X-Real-IP", "CF-Connecting-IP"].findSome?
    (fun name =>
      let ip := pickForwardedIP (r.header name)
      if ip ≠ "" then some ip else none)

/-- Source: `RealClientIPFromRequest` — headers are consulted only
when the transport remote IP parses and is trusted; otherwise the
remote IP's canonical string, or empty when it does not parse.  The
`Option Request` argument models the `*http.Request` pointer. -/
def RealClientIPFromRequest (env : String) (req : Option Request) : String :=
  match req with
  | none => ""
  | some r =>
    match parseRemoteIP r.remoteAddr with
    | none => ""
    | some remoteIP =>
      if isTrustedProxyIP env remoteIP then
        match headerLoop r with
        | some ip => ip
        | none => ipStringGo remoteIP
      else ipStringGo remoteIP

/-! ## The gin-context cache wrapper (`RealClientIP`) -/

/-- A value stored in gin's per-request key/value bag (`c.Get` returns
`any`; the resolver only type-asserts `string`). -/
inductive GinVal where
  | str (s : String)
  | other
deriving DecidableEq

/-- The per-request gin context: the key/value bag, the request
pointer, and the value gin's own `c.ClientIP()` would produce (treated
as an opaque last-resort fallback). -/
structure GinCtx where
  store : List (String × GinVal)
  request : Option Request
  ginClientIP : String

/-- The context key `realClientIPKey`. -/
def realClientIPKey : String := "real_client_ip"

/-- Gin `c.Get`. -/
def ginGet (c : GinCtx) (k : String) : Option GinVal :=
  (c.store.find? (fun e => e.1 = k)).map (fun e => e.2)

/-- Gin `c.Set` (later entries shadow earlier ones). -/
def ginSet (c : GinCtx) (k : String) (v : GinVal) : GinCtx :=
  { c with store := (k, v) :: c.store }

/-- Source: `RealClientIP` — cache check, resolution, caching of
non-empty results, final `c.ClientIP()` fallback (not cached).  The
pair returned is (result, context after the call). -/
def RealClientIP (env : String) (c : GinCtx) : String × GinCtx :=
  let compute : String × GinCtx :=
    let ip := RealClientIPFromRequest env c.request
    if ip ≠ "" then (ip, ginSet c realClientIPKey (.str ip))
    else (c.ginClientIP, c)
  match ginGet c realClientIPKey with
  | some (.str ip) => if ip ≠ "" then (ip, c) else compute
  | _ => compute

/-! ## Heap model for the defensive copy in `TrustedProxies`

Go slices alias a backing array; `append([]string(nil), list...)`
allocates a fresh array.  To state the frame property of the accessor,
slots of string-slice contents are kept in an explicit heap and the
process-wide `trustedProxyList` lives in one slot. -/

/-- A heap of string-slice backing arrays; a reference is an index. -/
structure SliceHeap where
  slots : List (List String)
deriving DecidableEq

/-- Read a reference (out-of-range reads give the empty slice). -/
def heapRead (h : SliceHeap) (r : Nat) : List String :=
  h.slots.getD r []

/-- Overwrite the contents behind a reference. -/
def heapWrite (h : SliceHeap) (r : Nat) (v : List String) : SliceHeap :=
  ⟨h.slots.set r v⟩

/-- Allocate a fresh backing array, returning its reference. -/
def heapAlloc (h : SliceHeap) (v : List String) : Nat × SliceHeap :=
  (h.slots.length, ⟨h.slots ++ [v]⟩)

/-- The process-wide trust state: the heap and the reference held by
the package-level `trustedProxyList` variable. -/
structure ProxyState where
  heap : SliceHeap
  listRef : Nat

/-- Source: the body of `TrustedProxies` in the heap model —
`append([]string(nil), trustedProxyList...)` reads the global slice
and copies it into a freshly allocated backing array, whose reference
is handed to the caller. -/
def TrustedProxiesAlloc (st : ProxyState) : Nat × ProxyState :=
  let contents := heapRead st.heap st.listRef
  let (r, heap2) := heapAlloc st.heap contents
  (r, { st with heap := heap2 })

/-- The process state after a caller mutates (overwrites with `v`) the
slice it received from the accessor. -/
def callerMutated (st : ProxyState) (v : List String) : ProxyState :=
  { st with
    heap := heapWrite (TrustedProxiesAlloc st).2.heap (TrustedProxiesAlloc st).1 v }

/-! ## Claim-side specification of the candidate selection (C2) -/

/-- The candidate-selection algorithm exactly as the spec words it
(for the refinement claim C2): trim the comma-separated entries, keep
those that parse as IPs, return the first public one, else the first
valid one, else empty. -/
def specCandidateSelection (headerVal : String) : String :=
  let entries := (splitChar ',' headerVal.data).map (fun e => trimSpaceL e)
  let valids := entries.filter (fun e => (ParseIPGo ⟨e⟩).isSome)
  match valids.find? (fun e => ¬ IsPrivateIP ((ParseIPGo ⟨e⟩).getD [])) with
  | some e => ⟨e⟩
  | none =>
    match valids with
    | e :: _ => ⟨e⟩
    | [] => ""

/-- Generalization of `specCandidateSelection` to a running
`firstValid` accumulator, used to characterize the loop of
`pickForwardedIP`. -/
def specPickLoop (parts : List (List Char)) (fv : String) : String :=
  let valids := (parts.map (fun e => trimSpaceL e)).filter
    (fun e => (ParseIPGo ⟨e⟩).isSome)
  match valids.find? (fun e => ¬ IsPrivateIP ((ParseIPGo ⟨e⟩).getD [])) with
  | some e => ⟨e⟩
  | none =>
    match valids with
    | e :: _ => if fv = "" then ⟨e⟩ else fv
    | [] => fv

/-! ## General lemmas -/

/-- A freshly `Set` key is the one `Get` finds. -/
theorem ginGet_ginSet (c : GinCtx) (k : String) (v : GinVal) :
    ginGet (ginSet c k v) k = some v := by
  simp [ginGet, ginSet, List.find?]

/-! ## C10 — nil-request safety of the public entry point -/

/-- C10: `RealClientIPFromRequest` is total over its input: a nil
request yields the empty string rather than a failure, for every trust
configuration. -/
theorem C10_nil_request_yields_empty (env : String) :
    RealClientIPFromRequest env none = "" := rfl

/-- Closed instance of C10. -/
theorem C10_witness : RealClientIPFromRequest "10.0.0.0/8" none = "" :=
  C10_nil_request_yields_empty "10.0.0.0/8"

/-! ## C7 — malformed transport addresses degrade to empty, not error -/

/-- C7: when the host part of the transport remote address is empty or
does not parse as an IP, resolution produces no error value: the
remote IP is `none` and `RealClientIPFromRequest` returns the empty
string, for every trust configuration and header set. -/
theorem C7_malformed_remote_degrades_to_empty (ra : String)
    (hbad : remoteHost ra = "" ∨ ParseIPGo (remoteHost ra) = none) :
    parseRemoteIP ra = none ∧
      ∀ (env : String) (hdr : String → String),
        RealClientIPFromRequest env (some ⟨ra, hdr⟩) = "" := by
  have hn : parseRemoteIP ra = none := by
    unfold parseRemoteIP
    rcases hbad with h | h
    · simp [h]
    · by_cases he : remoteHost ra = "" <;> simp [he, h]
  refine ⟨hn, fun env hdr => ?_⟩
  simp [RealClientIPFromRequest, hn]

/-- Closed instance of C7 at the malformed address "garbage". -/
theorem C7_witness :
    parseRemoteIP "garbage" = none ∧
      ∀ (env : String) (hdr : String → String),
        RealClientIPFromRequest env (some ⟨"garbage", hdr⟩) = "" :=
  C7_malformed_remote_degrades_to_empty "garbage" (by right; decide)

/-! ## C1 — untrusted remotes: headers are ignored (spoofing resistance) -/

/-- C1: when the transport remote address parses to an IP outside
every trusted range, the resolver returns that remote IP's string and
the result is independent of all header values: any two header
functions give the same result. -/
theorem C1_untrusted_remote_ignores_headers (env ra : String)
    (h1 h2 : String → String) (ip : List Nat)
    (hp : parseRemoteIP ra = some ip)
    (ht : isTrustedProxyIP env ip = false) :
    RealClientIPFromRequest env (some ⟨ra, h1⟩) = ipStringGo ip ∧
      RealClientIPFromRequest env (some ⟨ra, h1⟩) =
        RealClientIPFromRequest env (some ⟨ra, h2⟩) := by
  have e : ∀ h : String → String,
      RealClientIPFromRequest env (some ⟨ra, h⟩) = ipStringGo ip := by
    intro h
    simp [RealClientIPFromRequest, hp, ht]
  exact ⟨e h1, (e h1).trans (e h2).symm⟩

/-- Closed instance of C1: remote 8.8.8.8 is outside the trusted range
192.168.1.1/32, so two contradictory spoofing header sets both yield
"8.8.8.8". -/
theorem C1_witness :
    RealClientIPFromRequest "192.168.1.1"
        (some ⟨"8.8.8.8:1234", fun _ => "203.0.113.50"⟩) =
      ipStringGo ((ParseIPGo "8.8.8.8").getD []) ∧
      RealClientIPFromRequest "192.168.1.1"
          (some ⟨"8.8.8.8:1234", fun _ => "203.0.113.50"⟩) =
        RealClientIPFromRequest "192.168.1.1"
          (some ⟨"8.8.8.8:1234", fun n => if n = "X-Real-IP" then "10.0.0.9" else ""⟩) :=
  C1_untrusted_remote_ignores_headers "192.168.1.1" "8.8.8.8:1234"
    (fun _ => "203.0.113.50")
    (fun n => if n = "X-Real-IP" then "10.0.0.9" else "")
    ((ParseIPGo "8.8.8.8").getD []) (by decide) (by decide)

/-! ## C3 — fixed header priority for trusted remotes -/

/-- C3: for a trusted remote IP the headers are consulted in the fixed
order X-Forwarded-For, X-Real-IP, CF-Connecting-IP, the first header
yielding a non-empty candidate wins, and in particular an empty
X-Forwarded-For with X-Real-IP set to 198.51.100.9 resolves to
198.51.100.9. -/
theorem C3_header_priority_order (env ra : String) (hdr : String → String)
    (ip : List Nat)
    (hp : parseRemoteIP ra = some ip)
    (ht : isTrustedProxyIP env ip = true) :
    (RealClientIPFromRequest env (some ⟨ra, hdr⟩) =
      (if pickForwardedIP (hdr "X-Forwarded-For") ≠ "" then
        pickForwardedIP (hdr "X-Forwarded-For")
      else if pickForwardedIP (hdr "X-Real-IP") ≠ "" then
        pickForwardedIP (hdr "X-Real-IP")
      else if pickForwardedIP (hdr "CF-Connecting-IP") ≠ "" then
        pickForwardedIP (hdr "CF-Connecting-IP")
      else ipStringGo ip)) ∧
      (hdr "X-Forwarded-For" = "" → hdr "X-Real-IP" = "198.51.100.9" →
        RealClientIPFromRequest env (some ⟨ra, hdr⟩) = "198.51.100.9") := by
  have main : RealClientIPFromRequest env (some ⟨ra, hdr⟩) =
      (if pickForwardedIP (hdr "X-Forwarded-For") ≠ "" then
        pickForwardedIP (hdr "X-Forwarded-For")
      else if pickForwardedIP (hdr "X-Real-IP") ≠ "" then
        pickForwardedIP (hdr "X-Real-IP")
      else if pickForwardedIP (hdr "CF-Connecting-IP") ≠ "" then
        pickForwardedIP (hdr "CF-Connecting-IP")
      else ipStringGo ip) := by
    simp only [RealClientIPFromRequest, hp, ht, if_true, headerLoop,
      List.findSome?_cons, List.findSome?_nil]
    by_cases hx : pickForwardedIP (hdr "X-Forwarded-For") = "" <;>
      by_cases hr : pickForwardedIP (hdr "X-Real-IP") = "" <;>
        by_cases hc : pickForwardedIP (hdr "CF-Connecting-IP") = "" <;>
          simp [hx, hr, hc]
  refine ⟨main, fun hxf hri => ?_⟩
  have e1 : pickForwardedIP "" = "" := rfl
  have e2 : pickForwardedIP "198.51.100.9" = "198.51.100.9" := by decide
  rw [main, hxf, hri, e1, e2]
  simp

/-- Closed instance of C3: the permissive default trusts the remote
203.0.113.5, X-Forwarded-For is empty, X-Real-IP carries
198.51.100.9. -/
theorem C3_witness :
    RealClientIPFromRequest ""
        (some ⟨"203.0.113.5:9999",
          fun n => if n = "X-Real-IP" then "198.51.100.9" else ""⟩) =
      "198.51.100.9" :=
  (C3_header_priority_order "" "203.0.113.5:9999"
      (fun n => if n = "X-Real-IP" then "198.51.100.9" else "")
      ((ParseIPGo "203.0.113.5").getD []) (by decide) (by decide)).2
    (by decide) (by decide)

/-! ## C6 — per-request cache idempotence -/

/-- Replacing the request of a context leaves the key/value bag as it
was. -/
theorem ginGet_set_request (c : GinCtx) (r2 : Option Request) (k : String) :
    ginGet { c with request := r2 } k = ginGet c k := rfl

/-- C6: within one request context, calling the cached resolver twice
with unchanged inputs returns the identical string, and once the first
call has computed and cached a non-empty value, the second call
returns that cached value even if the request (hence every header)
changes in between. -/
theorem C6_cache_idempotent (env : String) (c : GinCtx) :
    (RealClientIP env ((RealClientIP env c).2)).1 = (RealClientIP env c).1 ∧
      (∀ r2 : Option Request,
        (∀ s, ginGet c realClientIPKey = some (.str s) → s = "") →
        RealClientIPFromRequest env c.request ≠ "" →
        (RealClientIP env { (RealClientIP env c).2 with request := r2 }).1 =
          (RealClientIP env c).1) := by
  constructor
  · rcases hg : ginGet c realClientIPKey with _ | v
    · by_cases hip : RealClientIPFromRequest env c.request = ""
      · simp [RealClientIP, hg, hip]
      · simp [RealClientIP, hg, hip, ginGet_ginSet]
    · cases v with
      | str s =>
        by_cases hs : s = ""
        · by_cases hip : RealClientIPFromRequest env c.request = ""
          · simp [RealClientIP, hg, hs, hip]
          · simp [RealClientIP, hg, hs, hip, ginGet_ginSet]
        · simp [RealClientIP, hg, hs]
      | other =>
        by_cases hip : RealClientIPFromRequest env c.request = ""
        · simp [RealClientIP, hg, hip]
        · simp [RealClientIP, hg, hip, ginGet_ginSet]
  · intro r2 hempty hip
    rcases hg : ginGet c realClientIPKey with _ | v
    · simp [RealClientIP, hg, hip, ginGet_set_request, ginGet_ginSet]
    · cases v with
      | str s =>
        have hs : s = "" := hempty s hg
        simp [RealClientIP, hg, hs, hip, ginGet_set_request, ginGet_ginSet]
      | other =>
        simp [RealClientIP, hg, hip, ginGet_set_request, ginGet_ginSet]

/-- Closed instance of C6: an uncached context whose request resolves
to 198.51.100.9 via X-Real-IP; the second call still answers
198.51.100.9 after the headers are replaced with a spoofing set. -/
theorem C6_witness :
    ((RealClientIP ""
        ((RealClientIP "" ⟨[], some ⟨"203.0.113.5:9999",
          fun n => if n = "X-Real-IP" then "198.51.100.9" else ""⟩, "peer"⟩).2)).1 =
      (RealClientIP "" ⟨[], some ⟨"203.0.113.5:9999",
        fun n => if n = "X-Real-IP" then "198.51.100.9" else ""⟩, "peer"⟩).1) ∧
      ((RealClientIP ""
          { (RealClientIP "" ⟨[], some ⟨"203.0.113.5:9999",
              fun n => if n = "X-Real-IP" then "198.51.100.9" else ""⟩, "peer"⟩).2 with
            request := some ⟨"203.0.113.5:9999", fun _ => "10.9.9.9"⟩ }).1 =
        (RealClientIP "" ⟨[], some ⟨"203.0.113.5:9999",
          fun n => if n = "X-Real-IP" then "198.51.100.9" else ""⟩, "peer"⟩).1) :=
  ⟨(C6_cache_idempotent "" _).1,
    (C6_cache_idempotent "" _).2
      (some ⟨"203.0.113.5:9999", fun _ => "10.9.9.9"⟩)
      (fun s hs => by simp [ginGet] at hs) (by decide)⟩

/-! ## C9 — `TrustedProxies` hands out a defensive copy -/

/-- The fresh slot returned by the accessor holds the global list's
contents. -/
theorem trustedProxiesAlloc_reads_global (st : ProxyState) :
    heapRead (TrustedProxiesAlloc st).2.heap (TrustedProxiesAlloc st).1 =
      heapRead st.heap st.listRef := by
  unfold TrustedProxiesAlloc heapAlloc heapRead
  simp

/-- C9: the accessor returns a reference distinct from the process-wide
list; its contents agree with the global list, and mutating the
returned slot leaves the global slot unchanged, so a subsequent call
observes the same values as before the mutation. -/
theorem C9_trustedProxies_defensive_copy (st : ProxyState)
    (hvalid : st.listRef < st.heap.slots.length) :
    (TrustedProxiesAlloc st).1 ≠ st.listRef ∧
      heapRead (TrustedProxiesAlloc st).2.heap (TrustedProxiesAlloc st).1 =
        heapRead st.heap st.listRef ∧
      (∀ v, heapRead (callerMutated st v).heap st.listRef =
        heapRead st.heap st.listRef) ∧
      (∀ v, heapRead (TrustedProxiesAlloc (callerMutated st v)).2.heap
          (TrustedProxiesAlloc (callerMutated st v)).1 =
        heapRead st.heap st.listRef) := by
  have hr1 : (TrustedProxiesAlloc st).1 = st.heap.slots.length := rfl
  have hwrite : ∀ v, heapRead (callerMutated st v).heap st.listRef =
      heapRead st.heap st.listRef := by
    intro v
    unfold callerMutated TrustedProxiesAlloc heapAlloc heapWrite heapRead
    simp only
    rw [List.getD_eq_getElem?_getD, List.getD_eq_getElem?_getD,
      List.getElem?_set_ne (by omega), List.getElem?_append_left hvalid]
  refine ⟨by omega, trustedProxiesAlloc_reads_global st, hwrite, fun v => ?_⟩
  rw [trustedProxiesAlloc_reads_global]
  exact hwrite v

/-- Closed instance of C9 on a one-slot heap holding the list
["10.0.0.0/8"]. -/
theorem C9_witness :
    (TrustedProxiesAlloc ⟨⟨[["10.0.0.0/8"]]⟩, 0⟩).1 ≠ 0 ∧
      heapRead (TrustedProxiesAlloc ⟨⟨[["10.0.0.0/8"]]⟩, 0⟩).2.heap
          (TrustedProxiesAlloc ⟨⟨[["10.0.0.0/8"]]⟩, 0⟩).1 =
        heapRead ⟨[["10.0.0.0/8"]]⟩ 0 ∧
      (∀ v, heapRead (callerMutated ⟨⟨[["10.0.0.0/8"]]⟩, 0⟩ v).heap 0 =
        heapRead ⟨[["10.0.0.0/8"]]⟩ 0) ∧
      (∀ v, heapRead
          (TrustedProxiesAlloc (callerMutated ⟨⟨[["10.0.0.0/8"]]⟩, 0⟩ v)).2.heap
          (TrustedProxiesAlloc (callerMutated ⟨⟨[["10.0.0.0/8"]]⟩, 0⟩ v)).1 =
        heapRead ⟨[["10.0.0.0/8"]]⟩ 0) :=
  C9_trustedProxies_defensive_copy ⟨⟨[["10.0.0.0/8"]]⟩, 0⟩ (by decide)

/-! ## C4 — permissive default when nothing parses -/

/-- The parsed form of the permissive default list. -/
theorem parseProxyCIDRs_default :
    parseProxyCIDRs defaultProxyList =
      [⟨[0, 0, 0, 0], [0, 0, 0, 0]⟩,
        ⟨List.replicate 16 0, List.replicate 16 0⟩] := by decide

/-- Byte-AND with zero is zero, stated on `Nat.land`. -/
theorem land_zero (a : Nat) : Nat.land a 0 = 0 := Nat.and_zero a

/-- Byte-AND against an all-zero mask yields zeros. -/
theorem landBytes_zeros (l : List Nat) (n : Nat) :
    landBytes l (List.replicate n 0) = List.replicate (min l.length n) 0 := by
  induction l generalizing n with
  | nil => simp [landBytes]
  | cons a t ih =>
    cases n with
    | zero => simp [landBytes]
    | succ m =>
      simpa [landBytes, List.replicate_succ, Nat.succ_min_succ, land_zero]
        using ih m

/-- A successful `To4` yields four bytes. -/
theorem to4_length {ip x : List Nat} (h : to4 ip = some x) : x.length = 4 := by
  unfold to4 at h
  split_ifs at h with h1 h2
  · cases h; omega
  · cases h; simp [List.length_drop]; omega

/-- A failing `To4` means the slice is not 4 bytes long. -/
theorem to4_none_length {ip : List Nat} (h : to4 ip = none) : ip.length ≠ 4 := by
  intro h4
  unfold to4 at h
  simp [h4] at h

/-- Under an empty-or-fully-invalid configuration the loader resets to
the permissive default pair. -/
theorem loadTrustedProxies_fallback (env : String)
    (h : splitProxyList env = [] ∨ parseProxyCIDRs (splitProxyList env) = []) :
    loadTrustedProxies env =
      (defaultProxyList,
        [⟨[0, 0, 0, 0], [0, 0, 0, 0]⟩,
          ⟨List.replicate 16 0, List.replicate 16 0⟩]) := by
  by_cases h0 : splitProxyList env = []
  · unfold loadTrustedProxies
    rw [h0]
    simp only [List.length_nil, if_pos rfl, parseProxyCIDRs_default]
    decide
  · have hpc : parseProxyCIDRs (splitProxyList env) = [] := h.resolve_left h0
    have hlen : ¬ (splitProxyList env).length = 0 := by
      simpa [List.length_eq_zero] using h0
    unfold loadTrustedProxies
    simp only [if_neg hlen, hpc, List.length_nil, if_pos rfl,
      parseProxyCIDRs_default]
    simp

/-- C4: if the configuration splits to zero tokens, or none of its
tokens parse, `TrustedProxies` is exactly the two-entry permissive
default and every IPv4 or IPv6 address is trusted. -/
theorem C4_permissive_default (env : String)
    (h : splitProxyList env = [] ∨ parseProxyCIDRs (splitProxyList env) = []) :
    TrustedProxies env = ["0.0.0.0/0", "::/0"] ∧
      ∀ ip : List Nat, ip.length = 4 ∨ ip.length = 16 →
        isTrustedProxyIP env ip = true := by
  have key := loadTrustedProxies_fallback env h
  constructor
  · unfold TrustedProxies
    rw [key]
    rfl
  · intro ip hlen
    unfold isTrustedProxyIP
    rw [key]
    unfold isTrustedIPIn
    simp only [List.any_cons, List.any_nil, Bool.or_eq_true, Bool.or_false]
    rcases h4 : to4 ip with _ | x
    · right
      have h16 : ip.length = 16 := by
        rcases hlen with h | h
        · exact absurd h (to4_none_length h4)
        · exact h
      unfold containsGo networkNumberAndMask
      rw [h4]
      have ht0 : to4 (List.replicate 16 0) = none := by decide
      rw [ht0]
      simp only [List.length_replicate]
      norm_num
      constructor
      · exact h16
      · rw [landBytes_zeros, landBytes_zeros, h16]
        simp
    · left
      have hx4 : x.length = 4 := to4_length h4
      unfold containsGo networkNumberAndMask
      rw [h4]
      have ht4 : to4 [0, 0, 0, 0] = some [0, 0, 0, 0] := by decide
      rw [ht4]
      norm_num
      constructor
      · exact hx4
      · have : ([0, 0, 0, 0] : List Nat) = List.replicate 4 0 := by decide
        rw [this, landBytes_zeros, landBytes_zeros, hx4]
        simp

/-- Closed instance of C4 at the fully-invalid configuration
"not-an-ip, also-bad". -/
theorem C4_witness :
    TrustedProxies "not-an-ip, also-bad" = ["0.0.0.0/0", "::/0"] ∧
      ∀ ip : List Nat, ip.length = 4 ∨ ip.length = 16 →
        isTrustedProxyIP "not-an-ip, also-bad" ip = true :=
  C4_permissive_default "not-an-ip, also-bad" (Or.inr (by decide))

/-! ## C2 — candidate selection follows the documented algorithm -/

/-- A string built from a rune list is empty iff the list is. -/
theorem strMk_eq_empty (l : List Char) : ((⟨l⟩ : String) = "") ↔ l = [] := by
  constructor
  · intro h
    have := congrArg String.data h
    simpa using this
  · intro h
    rw [h]

/-- ParseIPGo rejects the empty string. -/
theorem parseIPGo_empty : ParseIPGo "" = none := rfl

/-- An entry that fails to parse contributes nothing to
`specPickLoop`. -/
theorem specPickLoop_cons_invalid (part : List Char) (rest : List (List Char))
    (fv : String) (h : ParseIPGo ⟨trimSpaceL part⟩ = none) :
    specPickLoop (part :: rest) fv = specPickLoop rest fv := by
  unfold specPickLoop
  simp [h]

/-- A public parsed entry is the result of `specPickLoop`. -/
theorem specPickLoop_cons_public (part : List Char) (rest : List (List Char))
    (fv : String) (ip : List Nat) (h : ParseIPGo ⟨trimSpaceL part⟩ = some ip)
    (hp : IsPrivateIP ip = false) :
    specPickLoop (part :: rest) fv = ⟨trimSpaceL part⟩ := by
  unfold specPickLoop
  simp [h, hp]

/-- A private parsed entry folds into the fallback accumulator. -/
theorem specPickLoop_cons_private (part : List Char) (rest : List (List Char))
    (fv : String) (ip : List Nat) (h : ParseIPGo ⟨trimSpaceL part⟩ = some ip)
    (hp : IsPrivateIP ip = true) :
    specPickLoop (part :: rest) fv =
      specPickLoop rest (if fv = "" then ⟨trimSpaceL part⟩ else fv) := by
  have hne : (⟨trimSpaceL part⟩ : String) ≠ "" := by
    intro he
    rw [he, parseIPGo_empty] at h
    exact Option.noConfusion h
  have hfv : (if fv = "" then (⟨trimSpaceL part⟩ : String) else fv) ≠ "" := by
    by_cases h0 : fv = "" <;> simp [h0, hne]
  unfold specPickLoop
  simp only [List.map_cons, List.filter_cons, h, Option.isSome_some, if_pos,
    List.find?_cons, Option.getD_some, hp]
  simp only [decide_not, decide_True, Bool.not_true]
  set fv2 := (if fv = "" then (⟨trimSpaceL part⟩ : String) else fv) with hfv2
  split
  next e heq => simp only [heq]
  next heq =>
    simp only [heq]
    split
    next e tail heq2 => rw [if_neg hfv]
    next heq2 => rfl

/-- The loop of `pickForwardedIP` computes `specPickLoop`. -/
theorem pickLoop_eq_specPickLoop (parts : List (List Char)) (fv : String) :
    pickForwardedIP.pickLoop parts fv = specPickLoop parts fv := by
  induction parts generalizing fv with
  | nil => rfl
  | cons part rest ih =>
    rcases hparse : ParseIPGo ⟨trimSpaceL part⟩ with _ | ip
    · -- the entry does not parse (this covers the empty-entry skip,
      -- because the empty string never parses): dropped on both sides
      have step : pickForwardedIP.pickLoop (part :: rest) fv =
          pickForwardedIP.pickLoop rest fv := by
        by_cases he : (⟨trimSpaceL part⟩ : String) = "" <;>
          simp [pickForwardedIP.pickLoop, he, hparse]
      rw [step, ih, specPickLoop_cons_invalid part rest fv hparse]
    · have hne : (⟨trimSpaceL part⟩ : String) ≠ "" := by
        intro he
        rw [he, parseIPGo_empty] at hparse
        exact Option.noConfusion hparse
      cases hpriv : IsPrivateIP ip with
      | true =>
        have step : pickForwardedIP.pickLoop (part :: rest) fv =
            pickForwardedIP.pickLoop rest
              (if fv = "" then ⟨trimSpaceL part⟩ else fv) := by
          simp [pickForwardedIP.pickLoop, hne, hparse, hpriv]
        rw [step, ih, ← specPickLoop_cons_private part rest fv ip hparse hpriv]
      | false =>
        have step : pickForwardedIP.pickLoop (part :: rest) fv =
            ⟨trimSpaceL part⟩ := by
          simp [pickForwardedIP.pickLoop, hne, hparse, hpriv]
        rw [step, specPickLoop_cons_public part rest fv ip hparse hpriv]

/-- C2: `pickForwardedIP` implements the claimed candidate selection —
the first trimmed entry that parses and is public wins, else the first
entry that parses at all, else the empty string. -/
theorem C2_candidate_selection_algorithm (headerVal : String) :
    pickForwardedIP headerVal = specCandidateSelection headerVal := by
  by_cases h : headerVal = ""
  · rw [h]
    decide
  · unfold pickForwardedIP
    rw [if_neg h, pickLoop_eq_specPickLoop]
    unfold specPickLoop specCandidateSelection
    rcases hf : ((splitChar ',' headerVal.data).map (fun e => trimSpaceL e)).filter
        (fun e => (ParseIPGo ⟨e⟩).isSome) with _ | ⟨e2, v2⟩ <;>
      simp [hf]

/-! ## C5 — invalid tokens: skipped from the parsed set, but kept in
the raw list -/

/-- The accumulation loop of `parseProxyCIDRs` is a `filterMap`. -/
theorem parseProxyCIDRs_eq_filterMap (list : List String) :
    parseProxyCIDRs list = list.filterMap parseCIDRTok := by
  have gen : ∀ (l : List String) (acc : List IPNet),
      l.foldl
        (fun cidrs proxy =>
          match parseCIDRTok proxy with
          | none => cidrs
          | some cidr => cidrs ++ [cidr]) acc = acc ++ l.filterMap parseCIDRTok := by
    intro l
    induction l with
    | nil => intro acc; simp
    | cons a t iht =>
      intro acc
      rcases ha : parseCIDRTok a with _ | c
      · simp only [List.foldl_cons, ha, List.filterMap_cons]
        exact iht acc
      · simp only [List.foldl_cons, ha, List.filterMap_cons]
        rw [iht (acc ++ [c])]
        simp
  unfold parseProxyCIDRs
  simpa using gen list []

/-- Counterexample to C5 as stated: with configuration "1.2.3.4,bad"
the token "bad" parses as neither IP nor CIDR, yet it appears in the
list returned by `TrustedProxies` (only the parsed matching set skips
it). -/
theorem C5_counterexample :
    "bad" ∈ splitProxyList "1.2.3.4,bad" ∧
      parseCIDRTok "bad" = none ∧
      "bad" ∈ TrustedProxies "1.2.3.4,bad" ∧
      parseProxyCIDRs (splitProxyList "1.2.3.4,bad") =
        [⟨[1, 2, 3, 4], [255, 255, 255, 255]⟩] := by decide

/-- C5 amended: when at least one token parses, each unparseable token
is absent from the parsed matching set (which is exactly the
`filterMap` of the per-token parser over the split list), but it is
retained in the raw list that `TrustedProxies` returns. -/
theorem C5_amended_invalid_only_skipped_from_parse_set (env tok : String)
    (hmem : tok ∈ splitProxyList env)
    (hbad : parseCIDRTok tok = none)
    (hsome : ∃ t ∈ splitProxyList env, (parseCIDRTok t).isSome) :
    (loadTrustedProxies env).2 = (splitProxyList env).filterMap parseCIDRTok ∧
      tok ∈ TrustedProxies env := by
  obtain ⟨t, htm, hts⟩ := hsome
  obtain ⟨c, hc⟩ := Option.isSome_iff_exists.mp hts
  have hlen : ¬ (splitProxyList env).length = 0 := by
    intro h0
    rw [List.length_eq_zero] at h0
    rw [h0] at hmem
    exact absurd hmem (List.not_mem_nil tok)
  have hcidrs : parseProxyCIDRs (splitProxyList env) =
      (splitProxyList env).filterMap parseCIDRTok :=
    parseProxyCIDRs_eq_filterMap _
  have hne : ¬ (parseProxyCIDRs (splitProxyList env)).length = 0 := by
    rw [hcidrs]
    intro h0
    rw [List.length_eq_zero] at h0
    have : c ∈ (splitProxyList env).filterMap parseCIDRTok :=
      List.mem_filterMap.mpr ⟨t, htm, hc⟩
    rw [h0] at this
    exact absurd this (List.not_mem_nil c)
  have hload : loadTrustedProxies env =
      (splitProxyList env, parseProxyCIDRs (splitProxyList env)) := by
    unfold loadTrustedProxies
    simp only [if_neg hlen, if_neg hne]
  constructor
  · rw [hload, hcidrs]
  · unfold TrustedProxies
    rw [hload]
    exact hmem

/-- Closed instance of the amended C5 at configuration "1.2.3.4,bad"
and token "bad". -/
theorem C5_amended_witness :
    (loadTrustedProxies "1.2.3.4,bad").2 =
        (splitProxyList "1.2.3.4,bad").filterMap parseCIDRTok ∧
      "bad" ∈ TrustedProxies "1.2.3.4,bad" :=
  C5_amended_invalid_only_skipped_from_parse_set "1.2.3.4,bad" "bad"
    (by decide) (by decide) ⟨"1.2.3.4", by decide, by decide⟩

/-! ## C8 — byte and mask arithmetic -/

set_option maxRecDepth 40000 in
/-- AND with the full byte mask is the identity on bytes. -/
theorem land_with_255 : ∀ b < 256, Nat.land b 255 = b := by decide

set_option maxRecDepth 200000 in
/-- AND with a partial high mask keeps the top `p` bits of a byte. -/
theorem land_high_mask : ∀ b < 256, ∀ p < 8,
    Nat.land b (256 - 2 ^ (8 - p)) = b / 2 ^ (8 - p) * 2 ^ (8 - p) := by decide

/-- Mask byte lists have the requested length. -/
theorem cidrMaskBytes_length (L : Nat) : ∀ n, (cidrMaskBytes L n).length = L := by
  induction L with
  | zero => intro n; rfl
  | succ k ih => intro n; simp [cidrMaskBytes, ih]

/-- The zero-bit mask is all zero bytes. -/
theorem cidrMaskBytes_zero (L : Nat) : cidrMaskBytes L 0 = List.replicate L 0 := by
  induction L with
  | zero => rfl
  | succ k ih => simp [cidrMaskBytes, ih, List.replicate_succ]

/-- Mask bytes are bytes. -/
theorem cidrMaskBytes_lt (L : Nat) : ∀ n, ∀ m ∈ cidrMaskBytes L n, m < 256 := by
  induction L with
  | zero => intro n m hm; simp [cidrMaskBytes] at hm
  | succ k ih =>
    intro n m hm
    simp only [cidrMaskBytes, List.mem_cons] at hm
    rcases hm with h | h
    · subst h
      by_cases h8 : 8 ≤ n <;> simp [h8] <;> omega
    · exact ih (n - 8) m h

/-- Dropping `k` bytes of a mask is the mask over the remaining bytes
with `8 * k` fewer one bits. -/
theorem cidrMaskBytes_drop : ∀ (k L n : Nat),
    (cidrMaskBytes L n).drop k = cidrMaskBytes (L - k) (n - 8 * k) := by
  intro k
  induction k with
  | zero => intro L n; simp
  | succ j ih =>
    intro L n
    cases L with
    | zero => simp [cidrMaskBytes]
    | succ m =>
      show (cidrMaskBytes (m + 1) n).drop (j + 1) = _
      rw [cidrMaskBytes]
      rw [List.drop_succ_cons, ih m (n - 8)]
      congr 1
      · omega
      · omega

/-- Byte lists encode values below `256 ^ length`. -/
theorem bytesToNat_lt : ∀ bs : List Nat, (∀ b ∈ bs, b < 256) →
    bytesToNat bs < 256 ^ bs.length := by
  intro bs
  induction bs with
  | nil => intro _; simp [bytesToNat]
  | cons b t ih =>
    intro h
    have hb : b < 256 := h b (List.mem_cons_self b t)
    have ht := ih (fun x hx => h x (List.mem_cons_of_mem b hx))
    simp only [bytesToNat, List.length_cons, pow_succ]
    calc b * 256 ^ t.length + bytesToNat t
        < b * 256 ^ t.length + 256 ^ t.length := by omega
      _ = (b + 1) * 256 ^ t.length := by ring
      _ ≤ 256 * 256 ^ t.length := by
          have : b + 1 ≤ 256 := hb
          exact Nat.mul_le_mul_right _ this
      _ = 256 ^ t.length * 256 := by ring

/-- All-zero byte lists encode zero. -/
theorem bytesToNat_replicate_zero : ∀ n, bytesToNat (List.replicate n 0) = 0 := by
  intro n
  induction n with
  | zero => rfl
  | succ k ih => simp [List.replicate_succ, bytesToNat, ih]

/-- `bytesToNat` is injective on byte lists of equal length. -/
theorem bytesToNat_inj : ∀ (a b : List Nat), a.length = b.length →
    (∀ x ∈ a, x < 256) → (∀ x ∈ b, x < 256) →
    bytesToNat a = bytesToNat b → a = b := by
  intro a
  induction a with
  | nil =>
    intro b hl _ _ _
    exact (List.length_eq_zero.mp hl.symm).symm
  | cons x t ih =>
    intro b hl ha hb he
    cases b with
    | nil => simp at hl
    | cons y u =>
      have hlen : t.length = u.length := by simpa using hl
      have hx : x < 256 := ha x (List.mem_cons_self x t)
      have hy : y < 256 := hb y (List.mem_cons_self y u)
      have hta := fun z hz => ha z (List.mem_cons_of_mem x hz)
      have htb := fun z hz => hb z (List.mem_cons_of_mem y hz)
      have h1 : bytesToNat t < 256 ^ t.length := bytesToNat_lt t hta
      have h2 : bytesToNat u < 256 ^ u.length := bytesToNat_lt u htb
      simp only [bytesToNat, hlen] at he
      have hxy : x = y := by
        by_contra hne
        rcases Nat.lt_or_ge x y with hlt | hge
        · have : x * 256 ^ u.length + 256 ^ u.length ≤ y * 256 ^ u.length := by
            have : x + 1 ≤ y := hlt
            calc x * 256 ^ u.length + 256 ^ u.length
                = (x + 1) * 256 ^ u.length := by ring
              _ ≤ y * 256 ^ u.length := Nat.mul_le_mul_right _ this
          rw [hlen] at h1
          omega
        · have hgt : y < x := lt_of_le_of_ne hge (fun h => hne h.symm)
          have : y * 256 ^ u.length + 256 ^ u.length ≤ x * 256 ^ u.length := by
            have : y + 1 ≤ x := hgt
            calc y * 256 ^ u.length + 256 ^ u.length
                = (y + 1) * 256 ^ u.length := by ring
              _ ≤ x * 256 ^ u.length := Nat.mul_le_mul_right _ this
          omega
      subst hxy
      have : bytesToNat t = bytesToNat u := by omega
      rw [ih u hlen hta htb this]

/-- Characterization of Euclidean division by a positive number. -/
theorem div_eq_iff_interval {x k q : Nat} (hk : 0 < k) :
    x / k = q ↔ q * k ≤ x ∧ x < q * k + k := by
  constructor
  · intro h
    subst h
    refine ⟨Nat.div_mul_le_self x k, ?_⟩
    have hmod : x / k * k + x % k = x := by
      rw [Nat.mul_comm]
      exact Nat.div_add_mod x k
    have hlt := Nat.mod_lt x hk
    omega
  · intro h
    refine Nat.div_eq_of_lt_le h.1 ?_
    rw [Nat.succ_mul]
    omega

/-- Pointwise AND of byte lists stays within bytes. -/
theorem landBytes_lt : ∀ (a b : List Nat), (∀ x ∈ a, x < 256) →
    ∀ x ∈ landBytes a b, x < 256 := by
  intro a
  induction a with
  | nil => intro b _ x hx; simp [landBytes] at hx
  | cons c t ih =>
    intro b ha x hx
    cases b with
    | nil => simp [landBytes] at hx
    | cons d u =>
      simp only [landBytes, List.zipWith_cons_cons, List.mem_cons] at hx
      rcases hx with h | h
      · subst h
        exact lt_of_le_of_lt Nat.and_le_left (ha c (List.mem_cons_self c t))
      · exact ih u (fun z hz => ha z (List.mem_cons_of_mem c hz)) x h

/-- Length of a pointwise AND. -/
theorem landBytes_length (a b : List Nat) :
    (landBytes a b).length = min a.length b.length := by
  simp [landBytes]

/-- Key mask identity: ANDing a byte list against the prefix mask with
`p` one bits clears exactly the low `8 * length - p` bits of its
value. -/
theorem landBytes_cidrMask_toNat : ∀ (bs : List Nat) (p : Nat),
    (∀ b ∈ bs, b < 256) → p ≤ 8 * bs.length →
    bytesToNat (landBytes bs (cidrMaskBytes bs.length p)) =
      bytesToNat bs / 2 ^ (8 * bs.length - p) * 2 ^ (8 * bs.length - p) := by
  intro bs
  induction bs with
  | nil => intro p _ hp; simp [landBytes, cidrMaskBytes, bytesToNat]
  | cons b t ih =>
    intro p hb hp
    have hbb : b < 256 := hb b (List.mem_cons_self b t)
    have hbt := fun z hz => hb z (List.mem_cons_of_mem b hz)
    have htlt : bytesToNat t < 2 ^ (8 * t.length) := by
      have := bytesToNat_lt t hbt
      calc bytesToNat t < 256 ^ t.length := this
        _ = 2 ^ (8 * t.length) := by
            rw [show (256 : Nat) = 2 ^ 8 from rfl, ← pow_mul]
    by_cases h8 : 8 ≤ p
    · -- full first byte
      have step : landBytes (b :: t) (cidrMaskBytes (b :: t).length p) =
          b :: landBytes t (cidrMaskBytes t.length (p - 8)) := by
        simp only [List.length_cons, cidrMaskBytes, if_pos h8, landBytes,
          List.zipWith_cons_cons]
        rw [land_with_255 b hbb]
      rw [step]
      have hlen : (landBytes t (cidrMaskBytes t.length (p - 8))).length = t.length := by
        rw [landBytes_length, cidrMaskBytes_length]
        simp
      have hp8 : p - 8 ≤ 8 * t.length := by
        simp only [List.length_cons] at hp
        omega
      have ihh := ih (p - 8) hbt hp8
      set K := 8 * t.length - (p - 8) with hK
      have hKle : K ≤ 8 * t.length := by omega
      have hWp : 8 * (b :: t).length - p = K := by
        simp only [List.length_cons]
        omega
      rw [bytesToNat, hlen, ihh, bytesToNat, hWp]
      have hsplit : (256 : Nat) ^ t.length = 2 ^ (8 * t.length - K) * 2 ^ K := by
        rw [← pow_add, show (256 : Nat) = 2 ^ 8 from rfl, ← pow_mul]
        congr 1
        omega
      have hpos : (0 : Nat) < 2 ^ K := Nat.pos_pow_of_pos K (by omega)
      have e1 : b * 256 ^ t.length = b * 2 ^ (8 * t.length - K) * 2 ^ K := by
        rw [hsplit]
        ring
      rw [e1]
      rw [show b * 2 ^ (8 * t.length - K) * 2 ^ K + bytesToNat t =
        bytesToNat t + b * 2 ^ (8 * t.length - K) * 2 ^ K from by ring]
      rw [Nat.add_mul_div_right _ _ hpos, Nat.add_mul]
      ring
    · -- partial first byte: the tail mask is all zeros
      have hplt : p < 8 := by omega
      have hz : p - 8 = 0 := by omega
      have step : landBytes (b :: t) (cidrMaskBytes (b :: t).length p) =
          Nat.land b (256 - 2 ^ (8 - p)) :: landBytes t (List.replicate t.length 0) := by
        simp only [List.length_cons, cidrMaskBytes, if_neg h8, landBytes,
          List.zipWith_cons_cons, hz, cidrMaskBytes_zero]
      rw [step, landBytes_zeros, land_high_mask b hbb p hplt]
      simp only [Nat.min_self]
      rw [bytesToNat, bytesToNat_replicate_zero, List.length_replicate]
      have hWp : 8 * (b :: t).length - p = (8 - p) + 8 * t.length := by
        simp only [List.length_cons]
        omega
      rw [bytesToNat, hWp]
      have hq : (256 : Nat) ^ t.length = 2 ^ (8 * t.length) := by
        rw [show (256 : Nat) = 2 ^ 8 from rfl, ← pow_mul]
      have hsplit2 : (2 : Nat) ^ ((8 - p) + 8 * t.length) =
          2 ^ (8 - p) * 2 ^ (8 * t.length) := pow_add 2 _ _
      have hpos8 : (0 : Nat) < 2 ^ (8 * t.length) := Nat.pos_pow_of_pos _ (by omega)
      have hdiv : (b * 256 ^ t.length + bytesToNat t) / 2 ^ ((8 - p) + 8 * t.length) =
          b / 2 ^ (8 - p) := by
        rw [hsplit2, Nat.mul_comm (2 ^ (8 - p)) (2 ^ (8 * t.length)),
          ← Nat.div_div_eq_div_mul, hq]
        congr 1
        rw [show b * 2 ^ (8 * t.length) + bytesToNat t =
          bytesToNat t + b * 2 ^ (8 * t.length) from by ring]
        rw [Nat.add_mul_div_right _ _ hpos8, Nat.div_eq_of_lt htlt]
        omega
      rw [hdiv, hsplit2, hq]
      ring

/-- Length of `natToBytes`. -/
theorem natToBytes_length : ∀ (L n : Nat), (natToBytes L n).length = L := by
  intro L
  induction L with
  | zero => intro n; rfl
  | succ k ih => intro n; simp [natToBytes, ih]

/-- Entries of `natToBytes` are bytes. -/
theorem natToBytes_lt : ∀ (L n : Nat), ∀ b ∈ natToBytes L n, b < 256 := by
  intro L
  induction L with
  | zero => intro n b hb; simp [natToBytes] at hb
  | succ k ih =>
    intro n b hb
    simp only [natToBytes, List.mem_cons] at hb
    rcases hb with h | h
    · subst h
      exact Nat.mod_lt _ (by omega)
    · exact ih n b h

/-- `natToBytes` encodes the value modulo `256 ^ L`. -/
theorem bytesToNat_natToBytes : ∀ (L n : Nat),
    bytesToNat (natToBytes L n) = n % 256 ^ L := by
  intro L
  induction L with
  | zero => intro n; simp [natToBytes, bytesToNat, Nat.mod_one]
  | succ k ih =>
    intro n
    simp only [natToBytes, bytesToNat, natToBytes_length, ih]
    have h1 : (256 : Nat) ^ (k + 1) = 256 ^ k * 256 := pow_succ 256 k
    rw [h1, Nat.mod_mul]
    ring

/-- AND twice against the same mask is AND once. -/
theorem land_land_self (a b : Nat) : Nat.land (Nat.land a b) b = Nat.land a b := by
  show a &&& b &&& b = a &&& b
  rw [Nat.land_assoc, Nat.and_self]

/-- Byte-AND is idempotent in its mask argument. -/
theorem landBytes_idem : ∀ (a b : List Nat),
    landBytes (landBytes a b) b = landBytes a b := by
  intro a
  induction a with
  | nil => intro b; rfl
  | cons x t ih =>
    intro b
    cases b with
    | nil => rfl
    | cons y u =>
      have hih := ih u
      simp only [landBytes] at hih
      simp only [landBytes, List.zipWith_cons_cons]
      rw [land_land_self, hih]

/-- Evaluation of `Contains` when the argument already is in the
network's family (the `To4` normalization fixes it). -/
theorem containsGo_eval (c : IPNet) (nn m : List Nat)
    (hnm : networkNumberAndMask c = some (nn, m))
    (addr : List Nat) (hlen : addr.length = nn.length)
    (hto4 : (match to4 addr with | some x => x | none => addr) = addr) :
    containsGo c addr = decide (landBytes nn m = landBytes addr m) := by
  unfold containsGo
  rw [hnm]
  simp only [hto4, hlen]
  simp

/-- `Contains` is false outright when `To4` moves the argument into
the other family. -/
theorem containsGo_family_mismatch (c : IPNet) (nn m : List Nat)
    (hnm : networkNumberAndMask c = some (nn, m))
    (addr x : List Nat) (h4 : to4 addr = some x) (hlen : x.length ≠ nn.length) :
    containsGo c addr = false := by
  unfold containsGo
  rw [hnm]
  simp only [h4]
  simp [hlen]

/-- Membership in a normalized range is exactly the numeric interval
of the CIDR block: addresses of the network's family whose value lies
in `[network, network + 2^(bits - prefix))`. -/
theorem containsGo_iff_interval (c : IPNet) (bs : List Nat) (L p : Nat)
    (hL : L = 4 ∨ L = 16) (hbs : bs.length = L) (hblt : ∀ b ∈ bs, b < 256)
    (hp : p ≤ 8 * L)
    (hnm : networkNumberAndMask c =
      some (landBytes bs (cidrMaskBytes L p), cidrMaskBytes L p))
    (addr : List Nat) (ha : addr.length = L) (halt : ∀ b ∈ addr, b < 256)
    (hnotmapped : L = 16 → to4 addr = none) :
    (containsGo c addr = true ↔
      bytesToNat (landBytes bs (cidrMaskBytes L p)) ≤ bytesToNat addr ∧
        bytesToNat addr <
          bytesToNat (landBytes bs (cidrMaskBytes L p)) + 2 ^ (8 * L - p)) := by
  have hMlen : (cidrMaskBytes L p).length = L := cidrMaskBytes_length L p
  have hMlt := cidrMaskBytes_lt L p
  have hnnlen : (landBytes bs (cidrMaskBytes L p)).length = L := by
    rw [landBytes_length, hbs, hMlen]
    simp
  have hto4 : (match to4 addr with | some x => x | none => addr) = addr := by
    rcases hL with h4 | h16
    · have h : to4 addr = some addr := by
        unfold to4
        rw [if_pos (by rw [ha, h4])]
      rw [h]
    · rw [hnotmapped h16]
  rw [containsGo_eval c _ _ hnm addr (by rw [ha, hnnlen]) hto4, landBytes_idem]
  have hKpos : (0 : Nat) < 2 ^ (8 * L - p) := Nat.pos_pow_of_pos _ (by omega)
  have hA : bytesToNat (landBytes addr (cidrMaskBytes L p)) =
      bytesToNat addr / 2 ^ (8 * L - p) * 2 ^ (8 * L - p) := by
    have h := landBytes_cidrMask_toNat addr p halt (by rw [ha]; exact hp)
    rw [ha] at h
    exact h
  have hN : bytesToNat (landBytes bs (cidrMaskBytes L p)) =
      bytesToNat bs / 2 ^ (8 * L - p) * 2 ^ (8 * L - p) := by
    have h := landBytes_cidrMask_toNat bs p hblt (by rw [hbs]; exact hp)
    rw [hbs] at h
    exact h
  constructor
  · intro hct
    have heq : landBytes bs (cidrMaskBytes L p) = landBytes addr (cidrMaskBytes L p) :=
      of_decide_eq_true hct
    have hev : bytesToNat addr / 2 ^ (8 * L - p) * 2 ^ (8 * L - p) =
        bytesToNat bs / 2 ^ (8 * L - p) * 2 ^ (8 * L - p) := by
      rw [← hN, ← hA, heq]
    have hq : bytesToNat addr / 2 ^ (8 * L - p) = bytesToNat bs / 2 ^ (8 * L - p) :=
      Nat.eq_of_mul_eq_mul_right hKpos hev
    have hint := (div_eq_iff_interval hKpos).mp hq
    rw [hN]
    omega
  · intro hiv
    rw [hN] at hiv
    have hq : bytesToNat addr / 2 ^ (8 * L - p) = bytesToNat bs / 2 ^ (8 * L - p) :=
      (div_eq_iff_interval hKpos).mpr ⟨hiv.1, by omega⟩
    apply decide_eq_true
    refine bytesToNat_inj _ _ ?_ ?_ ?_ ?_
    · rw [hnnlen, landBytes_length, ha, hMlen]
      simp
    · exact landBytes_lt bs _ hblt
    · exact landBytes_lt addr _ halt
    · rw [hN, hA, hq]

/-- The address one increment past the top of a normalized range (with
wraparound in the address space) is not contained in it whenever the
prefix has at least one bit. -/
theorem containsGo_outside_false (c : IPNet) (bs : List Nat) (L p : Nat)
    (hL : L = 4 ∨ L = 16) (hbs : bs.length = L) (hblt : ∀ b ∈ bs, b < 256)
    (hp : p ≤ 8 * L) (hp0 : 0 < p)
    (hnm : networkNumberAndMask c =
      some (landBytes bs (cidrMaskBytes L p), cidrMaskBytes L p)) :
    containsGo c
      (natToBytes L ((bytesToNat (landBytes bs (cidrMaskBytes L p)) +
        2 ^ (8 * L - p)) % 256 ^ L)) = false := by
  have hMlen : (cidrMaskBytes L p).length = L := cidrMaskBytes_length L p
  have hnnlen : (landBytes bs (cidrMaskBytes L p)).length = L := by
    rw [landBytes_length, hbs, hMlen]
    simp
  have hKpos : (0 : Nat) < 2 ^ (8 * L - p) := Nat.pos_pow_of_pos _ (by omega)
  have h256 : (256 : Nat) ^ L = 2 ^ (8 * L) := by
    rw [show (256 : Nat) = 2 ^ 8 from rfl, ← pow_mul]
  have hsplit : (2 : Nat) ^ (8 * L) = 2 ^ p * 2 ^ (8 * L - p) := by
    rw [← pow_add]
    congr 1
    omega
  have hN : bytesToNat (landBytes bs (cidrMaskBytes L p)) =
      bytesToNat bs / 2 ^ (8 * L - p) * 2 ^ (8 * L - p) := by
    have h := landBytes_cidrMask_toNat bs p hblt (by rw [hbs]; exact hp)
    rw [hbs] at h
    exact h
  set K := 8 * L - p with hK
  set q := bytesToNat bs / 2 ^ K with hq
  set addr := natToBytes L ((bytesToNat (landBytes bs (cidrMaskBytes L p)) +
    2 ^ K) % 256 ^ L) with haddr
  have halen : addr.length = L := natToBytes_length L _
  have halt : ∀ b ∈ addr, b < 256 := natToBytes_lt L _
  have hqlt : q < 2 ^ p := by
    have hb := bytesToNat_lt bs hblt
    rw [hbs, h256, hsplit] at hb
    exact (Nat.div_lt_iff_lt_mul hKpos).mpr (by rw [Nat.mul_comm] at hb ⊢; omega)
  have hAOut : bytesToNat addr = ((q + 1) % 2 ^ p) * 2 ^ K := by
    rw [haddr, bytesToNat_natToBytes, Nat.mod_mod_of_dvd _ (dvd_refl _), hN]
    rw [show q * 2 ^ K + 2 ^ K = (q + 1) * 2 ^ K from by ring]
    rw [h256, hsplit, Nat.mul_mod_mul_right]
  have hmaskedOut : bytesToNat (landBytes addr (cidrMaskBytes L p)) =
      ((q + 1) % 2 ^ p) * 2 ^ K := by
    have h := landBytes_cidrMask_toNat addr p halt (by rw [halen]; exact hp)
    rw [halen] at h
    rw [h, hAOut, ← hK, Nat.mul_div_cancel _ hKpos]
  have hne : landBytes bs (cidrMaskBytes L p) ≠ landBytes addr (cidrMaskBytes L p) := by
    intro heq
    have hvals : q * 2 ^ K = ((q + 1) % 2 ^ p) * 2 ^ K := by
      rw [← hN, ← hmaskedOut, heq]
    have hqq : q = (q + 1) % 2 ^ p := Nat.eq_of_mul_eq_mul_right hKpos hvals
    by_cases hlt : q + 1 < 2 ^ p
    · rw [Nat.mod_eq_of_lt hlt] at hqq
      omega
    · have he : q + 1 = 2 ^ p := by omega
      rw [he, Nat.mod_self] at hqq
      have h1 : 1 < 2 ^ p := Nat.one_lt_two_pow (by omega)
      omega
  have hfam : ∀ h16 : to4 addr = none ∨ L = 4,
      containsGo c addr = false := by
    intro hcase
    have hto4 : (match to4 addr with | some x => x | none => addr) = addr := by
      rcases hcase with h | h4
      · rw [h]
      · have h : to4 addr = some addr := by
          unfold to4
          rw [if_pos (by rw [halen, h4])]
        rw [h]
    rw [containsGo_eval c _ _ hnm addr (by rw [halen, hnnlen]) hto4, landBytes_idem]
    exact decide_eq_false hne
  rcases hL with h4 | h16
  · exact hfam (Or.inr h4)
  · rcases h4a : to4 addr with _ | x
    · exact hfam (Or.inl h4a)
    · refine containsGo_family_mismatch c _ _ hnm addr x h4a ?_
      rw [to4_length h4a, hnnlen, h16]
      omega

/-! ## C8 — parser output shapes -/

/-- Successful `parseIPv4Fields` yields exactly four bytes. -/
theorem parseV4Fields_out : ∀ (cs : List Char) (val dig : Nat)
    (fields out : List Nat),
    parseV4Fields cs val dig fields = some out → val < 256 →
    (∀ b ∈ fields, b < 256) →
    (∀ b ∈ out, b < 256) ∧ out.length = 4 := by
  intro cs
  induction cs with
  | nil =>
    intro val dig fields out h hv hf
    simp only [parseV4Fields] at h
    by_cases h0 : dig = 0
    · rw [if_pos h0] at h
      exact Option.noConfusion h
    · rw [if_neg h0] at h
      by_cases h3 : fields.length = 3
      · rw [if_pos h3] at h
        cases h
        have hb : ∀ b ∈ fields ++ [val], b < 256 := by
          intro b hb
          rcases List.mem_append.mp hb with hm | hm
          · exact hf b hm
          · simp at hm
            omega
        refine ⟨hb, by simp [h3]⟩
      · rw [if_neg h3] at h
        exact Option.noConfusion h
  | cons c rest ih =>
    intro val dig fields out h hv hf
    simp only [parseV4Fields] at h
    by_cases hd : c.isDigit
    · rw [if_pos hd] at h
      by_cases hz : dig = 1 ∧ val = 0
      · rw [if_pos hz] at h
        exact Option.noConfusion h
      · rw [if_neg hz] at h
        by_cases hov : val * 10 + (c.toNat - 48) > 255
        · rw [if_pos hov] at h
          exact Option.noConfusion h
        · rw [if_neg hov] at h
          exact ih _ _ _ _ h (by omega) hf
    · rw [if_neg hd] at h
      by_cases hc : c = '.'
      · rw [if_pos hc] at h
        by_cases h0 : dig = 0
        · rw [if_pos h0] at h
          exact Option.noConfusion h
        · rw [if_neg h0] at h
          by_cases h3 : fields.length = 3
          · rw [if_pos h3] at h
            exact Option.noConfusion h
          · rw [if_neg h3] at h
            have hb : ∀ b ∈ fields ++ [val], b < 256 := by
              intro b hb
              rcases List.mem_append.mp hb with hm | hm
              · exact hf b hm
              · simp at hm
                omega
            exact ih _ _ _ _ h (by omega) hb
      · rw [if_neg hc] at h
        exact Option.noConfusion h

/-- Successful `parseIPv4Go` yields four bytes below 256. -/
theorem parseIPv4Go_out (s : List Char) (out : List Nat)
    (h : parseIPv4Go s = some out) :
    out.length = 4 ∧ ∀ b ∈ out, b < 256 := by
  have r := parseV4Fields_out s 0 0 [] out h (by omega) (by simp)
  exact ⟨r.2, r.1⟩

/-- Injectivity of the packed loop state. -/
theorem v6StateInj {a1 a2 : List Char} {b1 b2 : Option Nat} {c1 c2 : List Nat}
    (h : (some (a1, b1, c1) : Option (List Char × Option Nat × List Nat)) =
      some (a2, b2, c2)) :
    a1 = a2 ∧ b1 = b2 ∧ c1 = c2 := by
  injection h with h1
  injection h1 with ha h2
  injection h2 with hb hc
  exact ⟨ha, hb, hc⟩

/-- Invariant of the `parseIPv6` main loop: bytes stay bytes, at most
16 of them, and the ellipsis position never exceeds the byte count. -/
theorem v6Iter_out : ∀ (fuel : Nat) (s : List Char) (ell : Option Nat)
    (bytes : List Nat) (s2 : List Char) (ell2 : Option Nat) (bytes2 : List Nat),
    v6Iter fuel s ell bytes = some (s2, ell2, bytes2) →
    (∀ b ∈ bytes, b < 256) → 2 ∣ bytes.length → bytes.length ≤ 16 →
    (∀ e, ell = some e → e ≤ bytes.length) →
    (∀ b ∈ bytes2, b < 256) ∧ bytes2.length ≤ 16 ∧
      (∀ e, ell2 = some e → e ≤ bytes2.length) := by
  intro fuel
  induction fuel with
  | zero =>
    intro s ell bytes s2 ell2 bytes2 h hb hev hle hell
    simp only [v6Iter] at h
    obtain ⟨rfl, rfl, rfl⟩ := v6StateInj h
    exact ⟨hb, hle, hell⟩
  | succ f ih =>
    intro s ell bytes s2 ell2 bytes2 h hb hev hle hell
    simp only [v6Iter] at h
    by_cases h16 : 16 ≤ bytes.length
    · rw [if_pos h16] at h
      obtain ⟨rfl, rfl, rfl⟩ := v6StateInj h
      exact ⟨hb, hle, hell⟩
    · rw [if_neg h16] at h
      by_cases hds : (s.takeWhile (fun c => (hexVal c).isSome)).length = 0
      · rw [if_pos hds] at h
        exact Option.noConfusion h
      · rw [if_neg hds] at h
        by_cases hov : 0xFFFF < hexAcc (s.takeWhile (fun c => (hexVal c).isSome))
        · rw [if_pos hov] at h
          exact Option.noConfusion h
        · rw [if_neg hov] at h
          have hacc := Nat.not_lt.mp hov
          have hbyte : ∀ b ∈ bytes ++
              [hexAcc (s.takeWhile (fun c => (hexVal c).isSome)) / 256,
                hexAcc (s.takeWhile (fun c => (hexVal c).isSome)) % 256],
              b < 256 := by
            intro b hbm
            rcases List.mem_append.mp hbm with hm | hm
            · exact hb b hm
            · simp only [List.mem_cons, List.mem_singleton] at hm
              rcases hm with rfl | rfl | hfalse
              · omega
              · exact Nat.mod_lt _ (by omega)
              · simp at hfalse
          have hblen : (bytes ++
              [hexAcc (s.takeWhile (fun c => (hexVal c).isSome)) / 256,
                hexAcc (s.takeWhile (fun c => (hexVal c).isSome)) % 256]).length =
              bytes.length + 2 := by simp
          rcases hrest : s.drop (s.takeWhile (fun c => (hexVal c).isSome)).length
            with _ | ⟨c, rest2⟩
          · rw [hrest] at h
            simp only [] at h
            obtain ⟨rfl, rfl, rfl⟩ := v6StateInj h
            refine ⟨hbyte, by rw [hblen]; omega, ?_⟩
            intro e he
            have := hell e he
            rw [hblen]
            omega
          · rw [hrest] at h
            simp only [] at h
            by_cases hdot : c = '.'
            · rw [if_pos hdot] at h
              by_cases hcond : ell.isNone ∧ bytes.length ≠ 12
              · rw [if_pos hcond] at h
                exact Option.noConfusion h
              · rw [if_neg hcond] at h
                by_cases hroom : 16 < bytes.length + 4
                · rw [if_pos hroom] at h
                  exact Option.noConfusion h
                · rw [if_neg hroom] at h
                  rcases hv4 : parseV4Fields s 0 0 [] with _ | ip4
                  · rw [hv4] at h
                    exact Option.noConfusion h
                  · rw [hv4] at h
                    obtain ⟨rfl, rfl, rfl⟩ := v6StateInj h
                    have hip4 := parseV4Fields_out s 0 0 [] ip4 hv4 (by omega) (by simp)
                    refine ⟨?_, by simp [hip4.2]; omega, ?_⟩
                    · intro b hbm
                      rcases List.mem_append.mp hbm with hm | hm
                      · exact hb b hm
                      · exact hip4.1 b hm
                    · intro e he
                      have := hell e he
                      simp only [List.length_append]
                      omega
            · rw [if_neg hdot] at h
              by_cases hcol : c = ':'
              · rw [if_pos hcol] at h
                rcases rest2 with _ | ⟨c2, rest3⟩
                · exact Option.noConfusion h
                · simp only [] at h
                  by_cases hcol2 : c2 = ':'
                  · rw [if_pos hcol2] at h
                    by_cases hes : ell.isSome
                    · rw [if_pos hes] at h
                      exact Option.noConfusion h
                    · rw [if_neg hes] at h
                      by_cases hr3 : rest3 = []
                      · rw [if_pos hr3] at h
                        obtain ⟨rfl, rfl, rfl⟩ := v6StateInj h
                        refine ⟨hbyte, by rw [hblen]; omega, ?_⟩
                        intro e he
                        injection he with he2
                        omega
                      · rw [if_neg hr3] at h
                        refine ih _ _ _ _ _ _ h hbyte ?_ ?_ ?_
                        · rw [hblen]
                          omega
                        · rw [hblen]
                          omega
                        · intro e he
                          injection he with he2
                          omega
                  · rw [if_neg hcol2] at h
                    refine ih _ _ _ _ _ _ h hbyte ?_ ?_ ?_
                    · rw [hblen]
                      omega
                    · rw [hblen]
                      omega
                    · intro e he
                      have := hell e he
                      rw [hblen]
                      omega
              · rw [if_neg hcol] at h
                exact Option.noConfusion h

/-- Successful `parseIPv6Go` yields sixteen bytes below 256. -/
theorem parseIPv6Go_out (s : List Char) (out : List Nat)
    (h : parseIPv6Go s = some out) :
    out.length = 16 ∧ ∀ b ∈ out, b < 256 := by
  have finish : ∀ r, parseIPv6Go.v6Finish r = some out →
      (∀ s1 ell1 bytes1, r = some (s1, ell1, bytes1) →
        (∀ b ∈ bytes1, b < 256) ∧ bytes1.length ≤ 16 ∧
          (∀ e, ell1 = some e → e ≤ bytes1.length)) →
      out.length = 16 ∧ ∀ b ∈ out, b < 256 := by
    intro r hr hinv
    rcases r with _ | ⟨s1, ell1, bytes1⟩
    · exact Option.noConfusion hr
    · obtain ⟨hb1, hl1, he1⟩ := hinv s1 ell1 bytes1 rfl
      simp only [parseIPv6Go.v6Finish] at hr
      by_cases hs1 : s1 ≠ []
      · rw [if_pos hs1] at hr
        exact Option.noConfusion hr
      · rw [if_neg hs1] at hr
        by_cases hlen : bytes1.length < 16
        · rw [if_pos hlen] at hr
          rcases ell1 with _ | e
          · exact Option.noConfusion hr
          · have he : e ≤ bytes1.length := he1 e rfl
            injection hr with hr2
            subst hr2
            constructor
            · simp only [List.length_append, List.length_take,
                List.length_replicate, List.length_drop]
              omega
            · intro b hbm
              rcases List.mem_append.mp hbm with hm | hm
              · rcases List.mem_append.mp hm with hm2 | hm2
                · exact hb1 b (List.mem_of_mem_take hm2)
                · rw [List.eq_of_mem_replicate hm2]
                  omega
              · exact hb1 b (List.mem_of_mem_drop hm)
        · rw [if_neg hlen] at hr
          by_cases hes : ell1.isSome
          · rw [if_pos hes] at hr
            exact Option.noConfusion hr
          · rw [if_neg hes] at hr
            injection hr with hr2
            subst hr2
            exact ⟨by omega, hb1⟩
  unfold parseIPv6Go at h
  by_cases hpc : s.contains '%'
  · rw [if_pos hpc] at h
    exact Option.noConfusion h
  · rw [if_neg hpc] at h
    rcases s with _ | ⟨c1, srest⟩
    · exact finish _ h (by
        intro s1 ell1 bytes1 hv
        exact v6Iter_out 9 _ _ _ _ _ _ hv (by simp) (by simp) (by simp)
          (by intro e he; exact Option.noConfusion he))
    · rcases srest with _ | ⟨c2, srest2⟩
      · exact finish _ h (by
          intro s1 ell1 bytes1 hv
          exact v6Iter_out 9 _ _ _ _ _ _ hv (by simp) (by simp) (by simp)
            (by intro e he; exact Option.noConfusion he))
      · simp only [] at h
        by_cases hcc : c1 = ':' ∧ c2 = ':'
        · rw [if_pos hcc] at h
          by_cases hre : srest2.isEmpty
          · rw [if_pos hre] at h
            injection h with h2
            subst h2
            constructor
            · simp
            · intro b hbm
              rw [List.eq_of_mem_replicate hbm]
              omega
          · rw [if_neg hre] at h
            exact finish _ h (by
              intro s1 ell1 bytes1 hv
              exact v6Iter_out 9 _ _ _ _ _ _ hv (by simp) (by simp) (by simp)
                (by intro e he; injection he with he2; omega))
        · rw [if_neg hcc] at h
          exact finish _ h (by
            intro s1 ell1 bytes1 hv
            exact v6Iter_out 9 _ _ _ _ _ _ hv (by simp) (by simp) (by simp)
              (by intro e he; exact Option.noConfusion he))

/-- Successful `netip.ParseAddr` yields a well-formed address of one of
the two families. -/
theorem parseAddrGo_out (s : List Char) (a : GoAddr) (h : parseAddrGo s = some a) :
    ((a.bits = 32 ∧ a.bytes.length = 4) ∨ (a.bits = 128 ∧ a.bytes.length = 16)) ∧
      ∀ b ∈ a.bytes, b < 256 := by
  unfold parseAddrGo at h
  rcases hf : s.find? (fun c => c = '.' ∨ c = ':' ∨ c = '%') with _ | c <;>
    rw [hf] at h
  · exact Option.noConfusion h
  · simp only [] at h
    by_cases hd : c = '.'
    · rw [if_pos hd] at h
      rcases hv : parseIPv4Go s with _ | b4 <;> rw [hv] at h
      · exact Option.noConfusion h
      · injection h with h2
        subst h2
        have r := parseIPv4Go_out s b4 hv
        exact ⟨Or.inl ⟨rfl, r.1⟩, r.2⟩
    · rw [if_neg hd] at h
      by_cases hc : c = ':'
      · rw [if_pos hc] at h
        rcases hv : parseIPv6Go s with _ | b6 <;> rw [hv] at h
        · exact Option.noConfusion h
        · injection h with h2
          subst h2
          have r := parseIPv6Go_out s b6 hv
          exact ⟨Or.inr ⟨rfl, r.1⟩, r.2⟩
      · rw [if_neg hc] at h
        exact Option.noConfusion h

/-- For valid arguments, `CIDRMask` is the prefix-mask byte list. -/
theorem cidrMask_eq (n W : Nat) (hW : W = 32 ∨ W = 128) (hn : n ≤ W) :
    cidrMask n W = cidrMaskBytes (W / 8) n := by
  unfold cidrMask
  rcases hW with rfl | rfl <;> simp [Nat.not_lt.mpr hn]

/-- Structure of a parsed CIDR: a masked well-formed address together
with its prefix mask. -/
theorem parseCIDRGo_struct (s : List Char) (c : IPNet)
    (h : parseCIDRGo s = some c) :
    ∃ (bs : List Nat) (L p : Nat), (L = 4 ∨ L = 16) ∧ bs.length = L ∧
      (∀ b ∈ bs, b < 256) ∧ p ≤ 8 * L ∧
      c = ⟨landBytes bs (cidrMaskBytes L p), cidrMaskBytes L p⟩ := by
  unfold parseCIDRGo at h
  rcases hsp : splitFirst '/' s with _ | ⟨addr, maskTxt⟩ <;> rw [hsp] at h
  · exact Option.noConfusion h
  · simp only [] at h
    rcases ha : parseAddrGo addr with _ | a <;> rw [ha] at h
    · exact Option.noConfusion h
    · simp only [] at h
      rcases hd : dtoiAll maskTxt with _ | n <;> rw [hd] at h
      · exact Option.noConfusion h
      · simp only [] at h
        by_cases hbit : a.bits < n
        · rw [if_pos hbit] at h
          exact Option.noConfusion h
        · rw [if_neg hbit] at h
          injection h with h2
          obtain ⟨hfam, hblt⟩ := parseAddrGo_out addr a ha
          have hn : n ≤ a.bits := Nat.not_lt.mp hbit
          rcases hfam with ⟨hb32, hl4⟩ | ⟨hb128, hl16⟩
          · refine ⟨a.bytes, 4, n, Or.inl rfl, hl4, hblt, by omega, ?_⟩
            rw [← h2]
            rw [hb32, cidrMask_eq n 32 (Or.inl rfl) (by omega)]
          · refine ⟨a.bytes, 16, n, Or.inr rfl, hl16, hblt, by omega, ?_⟩
            rw [← h2]
            rw [hb128, cidrMask_eq n 128 (Or.inr rfl) (by omega)]

/-- Structure of an accepted trusted-proxy token: both the slash and
the bare-IP forms end in `net.ParseCIDR`. -/
theorem parseCIDRTok_struct (tok : String) (c : IPNet)
    (h : parseCIDRTok tok = some c) :
    ∃ (bs : List Nat) (L p : Nat), (L = 4 ∨ L = 16) ∧ bs.length = L ∧
      (∀ b ∈ bs, b < 256) ∧ p ≤ 8 * L ∧
      c = ⟨landBytes bs (cidrMaskBytes L p), cidrMaskBytes L p⟩ := by
  unfold parseCIDRTok at h
  by_cases hsl : tok.data.contains '/'
  · rw [if_pos hsl] at h
    exact parseCIDRGo_struct _ _ h
  · rw [if_neg hsl] at h
    rcases hip : ParseIPGo tok with _ | ip <;> rw [hip] at h
    · exact Option.noConfusion h
    · simp only [] at h
      by_cases h4 : (to4 ip).isSome
      · rw [if_pos h4] at h
        exact parseCIDRGo_struct _ _ h
      · rw [if_neg h4] at h
        exact parseCIDRGo_struct _ _ h

/-- Pointwise AND read at an index. -/
theorem landBytes_getD : ∀ (a b : List Nat) (i : Nat), i < a.length →
    i < b.length →
    (landBytes a b).getD i 0 = Nat.land (a.getD i 0) (b.getD i 0) := by
  intro a
  induction a with
  | nil => intro b i ha _; simp at ha
  | cons x t ih =>
    intro b i ha hb
    cases b with
    | nil => simp at hb
    | cons y u =>
      cases i with
      | zero => simp [landBytes]
      | succ j =>
        simp only [landBytes, List.zipWith_cons_cons, List.getD_cons_succ]
        exact ih u j (by simpa using ha) (by simpa using hb)

/-- Below 96 one bits, byte 11 of a 16-byte mask is not full. -/
theorem mask16_byte11 : ∀ n < 96, (cidrMaskBytes 16 n).getD 11 0 ≠ 255 := by decide

/-- Normalized presentation of an accepted token's range, after
`networkNumberAndMask` folds IPv4-mapped networks into 4-byte form. -/
theorem parseCIDRTok_norm (tok : String) (c : IPNet)
    (h : parseCIDRTok tok = some c) :
    ∃ (bs : List Nat) (L p : Nat), (L = 4 ∨ L = 16) ∧ bs.length = L ∧
      (∀ b ∈ bs, b < 256) ∧ p ≤ 8 * L ∧
      networkNumberAndMask c =
        some (landBytes bs (cidrMaskBytes L p), cidrMaskBytes L p) := by
  obtain ⟨bs, L, p, hL, hlen, hlt, hp, hc⟩ := parseCIDRTok_struct tok c h
  subst hc
  rcases hL with h4 | h16
  · -- IPv4 network: already 4 bytes
    subst h4
    have hMlen : (cidrMaskBytes 4 p).length = 4 := cidrMaskBytes_length 4 p
    have hNlen : (landBytes bs (cidrMaskBytes 4 p)).length = 4 := by
      rw [landBytes_length, hlen, hMlen]
      simp
    refine ⟨bs, 4, p, Or.inl rfl, hlen, hlt, hp, ?_⟩
    have ht : to4 (landBytes bs (cidrMaskBytes 4 p)) =
        some (landBytes bs (cidrMaskBytes 4 p)) := by
      unfold to4
      rw [if_pos hNlen]
    unfold networkNumberAndMask
    simp only [ht, hMlen]
    simp
  · subst h16
    have hMlen : (cidrMaskBytes 16 p).length = 16 := cidrMaskBytes_length 16 p
    have hNlen : (landBytes bs (cidrMaskBytes 16 p)).length = 16 := by
      rw [landBytes_length, hlen, hMlen]
      simp
    rcases hmap : to4 (landBytes bs (cidrMaskBytes 16 p)) with _ | x
    · -- plain IPv6 network
      refine ⟨bs, 16, p, Or.inr rfl, hlen, hlt, hp, ?_⟩
      unfold networkNumberAndMask
      simp only [hmap, hNlen, hMlen]
      simp
    · -- IPv4-mapped network: both network and mask lose their first
      -- 12 bytes, which forces at least 96 prefix bits
      have hx : x = (landBytes bs (cidrMaskBytes 16 p)).drop 12 := by
        unfold to4 at hmap
        rw [if_neg (by rw [hNlen]; omega)] at hmap
        split_ifs at hmap with hcond
        injection hmap with h2
        exact h2.symm
      have hm11 : (landBytes bs (cidrMaskBytes 16 p)).getD 11 0 = 255 := by
        unfold to4 at hmap
        rw [if_neg (by rw [hNlen]; omega)] at hmap
        split_ifs at hmap with hcond
        exact hcond.2.2.2
      have hmaskbyte : (cidrMaskBytes 16 p).getD 11 0 = 255 := by
        have h11a : 11 < bs.length := by omega
        have h11b : 11 < (cidrMaskBytes 16 p).length := by
          rw [hMlen]
          omega
        rw [landBytes_getD bs _ 11 h11a h11b] at hm11
        have hle2 : Nat.land (bs.getD 11 0) ((cidrMaskBytes 16 p).getD 11 0) ≤
            (cidrMaskBytes 16 p).getD 11 0 := Nat.and_le_right
        have hmem : (cidrMaskBytes 16 p).getD 11 0 ∈ cidrMaskBytes 16 p := by
          rw [List.getD_eq_getElem _ _ h11b]
          exact List.getElem_mem h11b
        have hlt2 := cidrMaskBytes_lt 16 p _ hmem
        omega
      have hp96 : 96 ≤ p := by
        by_contra hlt96
        exact mask16_byte11 p (by omega) hmaskbyte
      refine ⟨bs.drop 12, 4, p - 96, Or.inl rfl, by rw [List.length_drop]; omega,
        fun b hb => hlt b (List.mem_of_mem_drop hb), by omega, ?_⟩
      have hdropmask : (cidrMaskBytes 16 p).drop 12 = cidrMaskBytes 4 (p - 96) := by
        rw [cidrMaskBytes_drop]
      have hdropnet : x = landBytes (bs.drop 12) (cidrMaskBytes 4 (p - 96)) := by
        rw [hx]
        unfold landBytes
        rw [List.drop_zipWith, ← hdropmask]
      unfold networkNumberAndMask
      simp only [hmap, hMlen]
      norm_num
      rw [hdropnet, hdropmask]
      exact ⟨rfl, rfl⟩

/-- The trust check over a one-range set is that range's `Contains`. -/
theorem isTrustedIPIn_singleton (c : IPNet) (a : List Nat) :
    isTrustedIPIn [c] a = containsGo c a := by
  simp [isTrustedIPIn]

/-- C8: for every configuration token the loader accepts — a CIDR when
it carries a prefix separator, otherwise a single IP widened to /32 or
/128 — the trust check reports exactly the addresses of the resulting
range (its normalized network interval) as trusted, and the address
one increment past the range (when the prefix is non-trivial, so an
outside address exists) as untrusted. -/
theorem C8_accepted_token_roundtrip (tok env : String) (c : IPNet)
    (htok : parseCIDRTok tok = some c)
    (henv : (loadTrustedProxies env).2 = [c]) :
    ∃ nn m p, networkNumberAndMask c = some (nn, m) ∧ p ≤ 8 * nn.length ∧
      m = cidrMaskBytes nn.length p ∧
      (∀ addr : List Nat, addr.length = nn.length → (∀ b ∈ addr, b < 256) →
        (nn.length = 16 → to4 addr = none) →
        (isTrustedProxyIP env addr = true ↔
          bytesToNat nn ≤ bytesToNat addr ∧
            bytesToNat addr < bytesToNat nn + 2 ^ (8 * nn.length - p))) ∧
      (0 < p → isTrustedProxyIP env
        (natToBytes nn.length ((bytesToNat nn + 2 ^ (8 * nn.length - p)) %
          256 ^ nn.length)) = false) := by
  obtain ⟨bs, L, p, hL, hlen, hlt, hp, hnm⟩ := parseCIDRTok_norm tok c htok
  have htr : ∀ a : List Nat, isTrustedProxyIP env a = containsGo c a := by
    intro a
    unfold isTrustedProxyIP
    rw [henv, isTrustedIPIn_singleton]
  have hNlen : (landBytes bs (cidrMaskBytes L p)).length = L := by
    rw [landBytes_length, hlen, cidrMaskBytes_length]
    simp
  refine ⟨landBytes bs (cidrMaskBytes L p), cidrMaskBytes L p, p, hnm,
    by rw [hNlen]; exact hp, by rw [hNlen], ?_, ?_⟩
  · intro addr halen hablt hamap
    rw [htr addr, hNlen] at *
    have := containsGo_iff_interval c bs L p hL hlen hlt hp hnm addr
      (by rw [halen, hNlen]) hablt (fun h16 => hamap (by rw [hNlen, h16]))
    rw [hNlen] at halen
    constructor
    · intro hc2
      exact (this).mp hc2
    · intro hint
      exact (this).mpr hint
  · intro hp0
    rw [htr, hNlen]
    exact containsGo_outside_false c bs L p hL hlen hlt hp hp0 hnm

/-- Closed instance of C8 at the token "10.0.0.0/8" used as the whole
configuration. -/
theorem C8_witness :
    ∃ nn m p,
      networkNumberAndMask ⟨[10, 0, 0, 0], [255, 0, 0, 0]⟩ = some (nn, m) ∧
      p ≤ 8 * nn.length ∧ m = cidrMaskBytes nn.length p ∧
      (∀ addr : List Nat, addr.length = nn.length → (∀ b ∈ addr, b < 256) →
        (nn.length = 16 → to4 addr = none) →
        (isTrustedProxyIP "10.0.0.0/8" addr = true ↔
          bytesToNat nn ≤ bytesToNat addr ∧
            bytesToNat addr < bytesToNat nn + 2 ^ (8 * nn.length - p))) ∧
      (0 < p → isTrustedProxyIP "10.0.0.0/8"
        (natToBytes nn.length ((bytesToNat nn + 2 ^ (8 * nn.length - p)) %
          256 ^ nn.length)) = false) :=
  C8_accepted_token_roundtrip "10.0.0.0/8" "10.0.0.0/8"
    ⟨[10, 0, 0, 0], [255, 0, 0, 0]⟩ (by decide) (by decide)

end NewApi
